import Mathlib

/-!
Verification development for the voxel-topology module
`notebooks/experimental/topology/topology_numpy.py`.

The module's numpy arrays are modelled as (nested) lists of natural
numbers; all values handled by the module (lithology ids, fault-block
ids, bit-packed labels, contact signatures) are nonnegative integers,
so `np.abs` is the identity on them and modelling with `Nat` is exact.
Numpy's in-place updates (`fb -= 1`, `fb += ...`) are modelled by
returning the final state of the mutated argument array alongside the
result.  Operations that can raise (`list.index`, indexing `[0]` into
an empty array, boolean masks of mismatched shape) return `Option`.
-/

namespace TopologyNp

/-! ### Generic list and numpy helpers -/

/-- Minimum of a list (np.min); callers never pass an empty array. -/
def listMin : List Nat → Nat
  | [] => 0
  | x :: xs => xs.foldl min x

/-- Insert a value into a strictly sorted duplicate-free list, keeping it
strictly sorted.  Building block for `npUnique`. -/
def insertUnique (x : Nat) : List Nat → List Nat
  | [] => [x]
  | y :: ys =>
    if x < y then x :: y :: ys
    else if x = y then y :: ys
    else y :: insertUnique x ys

/-- np.unique: the distinct values of the input, in increasing order. -/
def npUnique (l : List Nat) : List Nat := l.foldr insertUnique []

/-- Number of set bits among the `w` lowest binary digits of a natural
number. -/
def popCountW : Nat → Nat → Nat
  | 0, _ => 0
  | w + 1, n => popCountW w (n / 2) + n % 2

/-- Fuel-driven binary length; with fuel at least `n` it computes the
number of binary digits of `n` (0 for 0). -/
def bitLenAux : Nat → Nat → Nat
  | 0, _ => 0
  | _ + 1, 0 => 0
  | fuel + 1, n + 1 => bitLenAux fuel ((n + 1) / 2) + 1

/-- Number of binary digits of a natural number (0 for 0). -/
def bitLen (n : Nat) : Nat := bitLenAux n n

/-- Number of set bits in the binary representation of a natural number. -/
def popCount (n : Nat) : Nat := popCountW (bitLen n) n

/-- Sum of powers of two with the given exponents. -/
def expSum (es : List Nat) : Nat := (es.map (fun e => 2 ^ e)).sum

/-- The fixed-width binary string of `n % 2 ^ w`, most significant bit
first, as a list of characters. -/
def bitsFix : Nat → Nat → List Char
  | 0, _ => []
  | w + 1, n => bitsFix w (n / 2) ++ [if n % 2 = 1 then '1' else '0']

/-- np.binary_repr for nonnegative input: the minimal-width binary string
of `n` (the string "0" for zero). -/
def binRepr (n : Nat) : List Char :=
  if n = 0 then ['0'] else bitsFix (bitLen n) n

/-- Python str.zfill: left-pad with zeros to width `w`. -/
def zfill (w : Nat) (s : List Char) : List Char :=
  List.replicate (w - s.length) '0' ++ s

/-- Python substring containment `p in l` for strings. -/
def listContains (p : List Char) : List Char → Bool
  | [] => p.isEmpty
  | c :: t => p.isPrefixOf (c :: t) || listContains p t

/-- Python `list.index`, returning `none` instead of raising ValueError. -/
def pyIndex : List (List Char) → List Char → Option Nat
  | [], _ => none
  | y :: ys, x => if y = x then some 0 else (pyIndex ys x).map (· + 1)

/-- Python dict assignment `d[k] = v` on an association list: replace the
binding if the key is present, else append it. -/
def dictInsert (l : List (Nat × Nat)) (k v : Nat) : List (Nat × Nat) :=
  match l with
  | [] => [(k, v)]
  | (k', v') :: rest =>
    if k' = k then (k, v) :: rest else (k', v') :: dictInsert rest k v

/-- Python dict lookup `d[k]` on the association-list model, `none` when
the key is absent. -/
def dictFind (k : Nat) : List (Nat × Nat) → Option Nat
  | [] => none
  | (k', v) :: rest => if k' = k then some v else dictFind k rest

/-- Python set.add on a list model of a set: append if not yet present. -/
def setAdd (l : List (Nat × Nat)) (p : Nat × Nat) : List (Nat × Nat) :=
  if p ∈ l then l else l ++ [p]

/-- Fold that stops with `none` as soon as the step function fails;
models a Python loop whose body may raise. -/
def optFold (f : β → α → Option β) : List α → β → Option β
  | [], b => some b
  | x :: xs, b =>
    match f b x with
    | none => none
    | some b' => optFold f xs b'

/-! ### 3-d arrays as nested lists -/

/-- A 3-d integer array (axis order x, y, z). -/
abbrev Arr3 := List (List (List Nat))

/-- Python slice `l[a : -b]` (for `b > 0`); also `l[a:]` via `b = 0`. -/
def sliceAB (a b : Nat) (l : List α) : List α :=
  (l.drop a).take (l.length - (a + b))

/-- Element-wise combination of two 3-d arrays (numpy broadcasting-free
binary ufunc; shapes agree in every use). -/
def zip3With (f : Nat → Nat → Nat) (a b : Arr3) : Arr3 :=
  List.zipWith (List.zipWith (List.zipWith f)) a b

/-- Apply Python slices `[a0:-b0, a1:-b1, a2:-b2]` to a 3-d array. -/
def crop3 (p0 p1 p2 : Nat × Nat) (a : Arr3) : Arr3 :=
  (sliceAB p0.1 p0.2 a).map
    (fun slab => (sliceAB p1.1 p1.2 slab).map (sliceAB p2.1 p2.2))

/-- Row-major flattening of a 3-d array. -/
def flat3 (a : Arr3) : List Nat := (a.map (fun s => s.flatten)).flatten

/-- The nested lengths of a 3-d array; equal shapes in numpy's sense. -/
def shapeOf (a : Arr3) : List (List Nat) := a.map (fun s => s.map List.length)

/-- Entry `a[i, j, k]` of a 3-d array, `none` when out of range. -/
def at3 (a : Arr3) (i j k : Nat) : Option Nat :=
  ((a.get? i).bind fun s => s.get? j).bind fun r => r.get? k

/-- numpy boolean-mask selection `vals[mask == s]` after flattening. -/
def maskSel (mask : List Nat) (s : Nat) (vals : List Nat) : List Nat :=
  (mask.zip vals).filterMap (fun p => if p.1 = s then some p.2 else none)

/-! ### get_labels_block -/

/-- Result of `get_labels_block` together with the final state of the two
argument arrays. -/
structure LabelsOut where
  labels : List Nat
  lb_after : List Nat
  fb_after : List (List Nat)

/-- Embedding of `get_labels_block(lb, fb)`.  The source mutates `fb` in
place (`fb -= 1; fb += np.arange(n_faults)[None, :].T`); the mutated array
is returned in `fb_after`.  `lb` is only rebound
(`lb = lb - lb.min() + n_faults + 2`), so the argument array is unchanged
and is returned as `lb_after`.  The labels block is
`(2 ** np.concatenate((lb[None, :], fb), axis=0)).sum(axis=0)`. -/
def get_labels_block (lb : List Nat) (fb : List (List Nat)) : LabelsOut :=
  let n_faults := fb.length
  let fb2 := fb.enum.map (fun p => p.2.map (fun x => x - 1 + p.1))
  let lb2 := lb.map (fun x => x - listMin lb + n_faults + 2)
  let labels := (List.range lb.length).map
    (fun v => ((lb2 :: fb2).map (fun row => 2 ^ row.getD v 0)).sum)
  ⟨labels, lb, fb2⟩

/-! ### get_topo_block -/

/-- Embedding of `get_topo_block(labels, n_shift)`.  Each of the three
sums `labels[s:, :, :] + labels[:-s, :, :]` (and the analogues on the
other axes) is wrapped in `np.abs`, which is the identity on these
nonnegative values.  The crop on the non-shifted axes is the Python
slice `slice(n_shift // 2, -n_shift // 2)`, whose stop is
`-((n_shift + 1) // 2)` by floor division.  The three cropped blocks are
stacked into a leading axis, modelled as a list of three 3-d arrays. -/
def get_topo_block (labels : Arr3) (n_shift : Nat) : List Arr3 :=
  let sum_x := zip3With (· + ·) (labels.drop n_shift) (sliceAB 0 n_shift labels)
  let sum_y := labels.map (fun slab =>
    List.zipWith (List.zipWith (· + ·)) (slab.drop n_shift) (sliceAB 0 n_shift slab))
  let sum_z := labels.map (fun slab => slab.map (fun row =>
    List.zipWith (· + ·) (row.drop n_shift) (sliceAB 0 n_shift row)))
  let a := n_shift / 2
  let b := (n_shift + 1) / 2
  [ sum_x.map (fun slab => (sliceAB a b slab).map (sliceAB a b)),
    (sliceAB a b sum_y).map (fun slab => slab.map (sliceAB a b)),
    (sliceAB a b sum_z).map (fun slab => sliceAB a b slab) ]

/-! ### get_edges -/

/-- The two slicing triples `slicers[i]` of `get_edges`: for each axis,
the shifted axis gets `slice(n_shift, None)` resp. `slice(-n_shift)`,
while the other two axes get `slice_fit = slice(n_shift - 1, -n_shift)`. -/
def slicersFor (s : Nat) :
    List (((Nat × Nat) × (Nat × Nat) × (Nat × Nat)) ×
          ((Nat × Nat) × (Nat × Nat) × (Nat × Nat))) :=
  let fit : Nat × Nat := (s - 1, s)
  [ (((s, 0), fit, fit), ((0, s), fit, fit)),
    ((fit, (s, 0), fit), (fit, (0, s), fit)),
    ((fit, fit, (s, 0)), (fit, fit, (0, s))) ]

/-- First half-shifted label sub-volume `labels_block[slicers[i][0]]`. -/
def shiftVol1 (s ax : Nat) (labels_block : Arr3) : Arr3 :=
  let sl := ((slicersFor s).getD ax (((0,0),(0,0),(0,0)),((0,0),(0,0),(0,0)))).1
  crop3 sl.1 sl.2.1 sl.2.2 labels_block

/-- Second half-shifted label sub-volume `labels_block[slicers[i][1]]`. -/
def shiftVol2 (s ax : Nat) (labels_block : Arr3) : Arr3 :=
  let sl := ((slicersFor s).getD ax (((0,0),(0,0),(0,0)),((0,0),(0,0),(0,0)))).2
  crop3 sl.1 sl.2.1 sl.2.2 labels_block

/-- `np.unique(shift[topo_block_dir == edge_sum])`: the sorted distinct
labels of one half-shifted sub-volume on the voxels carrying the
signature `edge_sum`. -/
def sideLabels (topo_dir shift : Arr3) (edge_sum : Nat) : List Nat :=
  npUnique (maskSel (flat3 topo_dir) edge_sum (flat3 shift))

/-- Embedding of `get_edges(topo_block_f, labels_block, n_shift)`.
Returns `none` where the source raises: a boolean mask whose shape does
not match the sub-volume (IndexError), or `[0]` on an empty unique array
(IndexError).  `edges.add((np.unique(...)[0], np.unique(...)[0]))` takes
the first element of each sorted unique array. -/
def get_edges (topo_block_f : List Arr3) (labels_block : Arr3) (n_shift : Nat) :
    Option (List (Nat × Nat)) :=
  optFold (fun acc p =>
    let topo_dir := p.2
    let shift_1 := shiftVol1 n_shift p.1 labels_block
    let shift_2 := shiftVol2 n_shift p.1 labels_block
    optFold (fun acc2 edge_sum =>
      if edge_sum = 0 then some acc2
      else if shapeOf topo_dir = shapeOf shift_1 ∧ shapeOf topo_dir = shapeOf shift_2 then
        match sideLabels topo_dir shift_1 edge_sum, sideLabels topo_dir shift_2 edge_sum with
        | a :: _, b :: _ => some (setAdd acc2 (a, b))
        | _, _ => none
      else none) (npUnique (flat3 topo_dir)) acc)
    topo_block_f.enum []

/-! ### get_lith_lot -/

/-- The binary-string table `layer_ids` of `get_lith_lot`: for each
`i in range(n_faults * 2, n_faults * 2 + n_layers)` the key
`np.binary_repr(2 ** i).zfill(n_faults * 2 + n_layers)` maps to `i`. -/
def lithKeys (n_faults n_layers : Nat) : List (List Char × Nat) :=
  (List.range' (n_faults * 2) n_layers).map
    (fun i => (zfill (n_faults * 2 + n_layers) (binRepr (2 ^ i)), i))

/-- `node_bin_nofault` of `get_lith_lot`: the zero-filled binary string
of the node with its trailing `n_faults * 2` characters replaced by
zeros (`node_bin[:-n_faults * 2] + "0" * n_faults * 2`).  The negative
slice stop degenerates when `n_faults = 0`: Python's `s[:-0]` is
`s[:0]`, the empty string, so the whole pattern is empty there; for
`n_faults > 0` the stop `-n_faults * 2` normalises to
`length - n_faults * 2` clipped at zero, which is exactly truncated
subtraction. -/
def nofaultPattern (node n_faults n_layers : Nat) : List Char :=
  (if n_faults * 2 = 0 then []
   else (zfill (n_faults * 2 + n_layers) (binRepr node)).take
     ((zfill (n_faults * 2 + n_layers) (binRepr node)).length -
       n_faults * 2)) ++
    List.replicate (n_faults * 2) '0'

/-- Embedding of `get_lith_lot(labels, n_faults, n_layers)`.  The labels
array enters only through `np.unique`, so it is passed flattened.  The
Python dict is modelled as an association list with replace-or-append
assignment; the inner loop tests substring containment
(`node_bin_nofault in k`) against every key. -/
def get_lith_lot (labels : List Nat) (n_faults n_layers : Nat) :
    List (Nat × Nat) :=
  (npUnique labels).foldl (fun lot node =>
    (lithKeys n_faults n_layers).foldl (fun lot2 kv =>
      if listContains (nofaultPattern node n_faults n_layers) kv.1 then
        dictInsert lot2 node kv.2
      else lot2) lot) []

/-! ### get_adj_matrix -/

/-- Entry `m[i, j]` of a boolean matrix modelled as nested lists. -/
def matEntry (m : List (List Bool)) (i j : Nat) : Bool :=
  (((m.get? i).getD []).get? j).getD false

/-- `adj_matrix[i, j] = True` on the nested-list model. -/
def matSet (m : List (List Bool)) (i j : Nat) : List (List Bool) :=
  m.set i (((m.get? i).getD []).set j true)

/-- Embedding of `get_adj_matrix(edges, adj_matrix_labels, labels)`.
`labels` enters only through `np.unique`, so it is passed flattened.
Returns `none` where the source raises: `adj_matrix_labels[0]` on an
empty list (IndexError) or `adj_matrix_labels.index(...)` on a missing
entry (ValueError).  The edge loop zero-fills to
`n_entities = len(adj_matrix_labels[0])`; the diagonal loop zero-fills
to the literal width 9. -/
def get_adj_matrix (edges : List (Nat × Nat)) (adj_matrix_labels : List (List Char))
    (labels : List Nat) : Option (List (List Bool)) :=
  match adj_matrix_labels with
  | [] => none
  | first :: _ =>
    let n := adj_matrix_labels.length
    let m0 : List (List Bool) := List.replicate n (List.replicate n false)
    let n_entities := first.length
    (optFold (fun m e =>
        match pyIndex adj_matrix_labels (zfill n_entities (binRepr e.1)),
              pyIndex adj_matrix_labels (zfill n_entities (binRepr e.2)) with
        | some i, some j => some (matSet (matSet m i j) j i)
        | _, _ => none) edges m0).bind
      (optFold (fun m l =>
        match pyIndex adj_matrix_labels (zfill 9 (binRepr l)) with
        | some i => some (matSet m i i)
        | none => none) (npUnique labels))

/-! ### Fault and lithology label enumeration -/

/-- Embedding of `get_fault_labels(n_faults)`:
`np.stack((np.arange(n), np.arange(1, n + 1))).T + np.arange(n)[None, :].T`,
i.e. row `i` is the pair `(i + i, (i + 1) + i)`. -/
def get_fault_labels (n_faults : Nat) : List (Nat × Nat) :=
  ((List.range n_faults).zip (List.range' 1 n_faults)).enum.map
    (fun p => (p.2.1 + p.1, p.2.2 + p.1))

/-- itertools.combinations in lexicographic position order. -/
def combinationsL : Nat → List α → List (List α)
  | 0, _ => [[]]
  | _ + 1, [] => []
  | k + 1, x :: xs => (combinationsL k xs).map (x :: ·) ++ combinationsL (k + 1) xs

/-- Embedding of `get_fault_label_comb_bin(fault_labels)`: enumerate
`combinations(fault_labels.flatten(), n_faults)`, skip a combination when
its sum equals one of the per-row sums `np.sum(fault_labels, axis=1)`,
and render the rest as `np.binary_repr(sum(2 ** comb)).zfill(n_faults*2)`. -/
def get_fault_label_comb_bin (fault_labels : List (Nat × Nat)) : List (List Char) :=
  let n_faults := fault_labels.length
  let flat := fault_labels.flatMap (fun p => [p.1, p.2])
  let rowSums := fault_labels.map (fun p => p.1 + p.2)
  (combinationsL n_faults flat).filterMap (fun comb =>
    if comb.sum ∈ rowSums then none
    else some (zfill (n_faults * 2) (binRepr ((comb.map (fun c => 2 ^ c)).sum))))

/-- Modelled from the spec: the enumeration `get_fault_label_comb_bin` is
claimed to produce — the binary strings of every selection of
`n_faults` ids that excludes exactly the selections containing the two
ids of one and the same fault block.  Used only to compare the source's
sum-based exclusion against the spec's wording. -/
def spec_fault_comb_bin (fault_labels : List (Nat × Nat)) : List (List Char) :=
  let n_faults := fault_labels.length
  let flat := fault_labels.flatMap (fun p => [p.1, p.2])
  (combinationsL n_faults flat).filterMap (fun comb =>
    if fault_labels.any (fun p => p.1 ∈ comb ∧ p.2 ∈ comb) then none
    else some (zfill (n_faults * 2) (binRepr ((comb.map (fun c => 2 ^ c)).sum))))

/-- Embedding of `get_lith_labels_bin(n_layers)`:
`[np.binary_repr(2 ** i).zfill(n_layers) for i in range(n_layers)]`. -/
def get_lith_labels_bin (n_layers : Nat) : List (List Char) :=
  (List.range n_layers).map (fun i => zfill n_layers (binRepr (2 ^ i)))

/-- Embedding of `get_adj_matrix_labels(lith_labels_bin, fault_labels_bin)`:
`[l + f for l in lith_labels_bin for f in fault_labels_bin]`. -/
def get_adj_matrix_labels (lith_labels_bin fault_labels_bin : List (List Char)) :
    List (List Char) :=
  lith_labels_bin.flatMap (fun l => fault_labels_bin.map (fun f => l ++ f))

/-! ### Formalised properties of the edge extraction -/

/-- A signature value on one axis is ambiguous when the voxels carrying
it hold more than one distinct label in one of the two half-shifted
sub-volumes.  The spec requires `get_edges` to surface this as a hard
defect. -/
def hasAmbiguity (topo_block_f : List Arr3) (labels_block : Arr3)
    (n_shift : Nat) : Bool :=
  (topo_block_f.enum).any (fun p =>
    (npUnique (flat3 p.2)).any (fun edge_sum =>
      decide (edge_sum ≠ 0) &&
        (decide (2 ≤ (sideLabels p.2
            (shiftVol1 n_shift p.1 labels_block) edge_sum).length) ||
         decide (2 ≤ (sideLabels p.2
            (shiftVol2 n_shift p.1 labels_block) edge_sum).length))))

/-- Alignment of the two half-shifted sub-volumes sliced by `get_edges`
with the cropped signature block built by `get_topo_block`: at every
position the two sub-volume entries sum to the signature entry, both
sides being `none` outside the common range (so the shapes agree as
well). -/
def alignedAx (s : Nat) (labels : Arr3) (ax : Nat) : Prop :=
  ∀ i j k, Option.map₂ (· + ·) (at3 (shiftVol1 s ax labels) i j k)
      (at3 (shiftVol2 s ax labels) i j k) =
    at3 ((get_topo_block labels s).getD ax []) i j k

/-! ### Concrete test volumes -/

/-- A 3×2×2 labels block whose x-axis contact at `y = 0` runs from label
1 up to label 2 while its y-axis contact at `x = 1` runs from label 2
down to label 1, so the two axes emit mirrored ordered tuples. -/
def volC8 : Arr3 := [[[1, 1], [1, 1]], [[2, 2], [1, 1]], [[2, 2], [2, 2]]]

/-- A striped 3×2×2 labels block (labels 1, 2, 1 along the x axis): the
x-axis signature 3 occurs at two voxels that carry distinct labels (1 and
2) in each half-shifted sub-volume. -/
def volC3 : Arr3 := [[[1, 1], [1, 1]], [[2, 2], [2, 2]], [[1, 1], [1, 1]]]

/-- A uniform 4×3×3 labels block of ones, exercised with `n_shift = 2`. -/
def volC9 : Arr3 := List.replicate 4 (List.replicate 3 (List.replicate 3 1))

/-- The canonical label ordering of the two-fault five-layer
configuration — the one configuration whose strings have the width 9
hard-coded in `get_adj_matrix`'s diagonal pass. -/
def amlNine : List (List Char) :=
  get_adj_matrix_labels (get_lith_labels_bin 5)
    (get_fault_label_comb_bin (get_fault_labels 2))

/-! ### Lemmas: list minimum and np.unique -/

theorem foldl_min_le (ys : List Nat) (a : Nat) :
    ys.foldl min a ≤ a ∧ ∀ x ∈ ys, ys.foldl min a ≤ x := by
  induction ys generalizing a with
  | nil => exact ⟨le_refl a, by simp⟩
  | cons b t ih =>
    refine ⟨le_trans (ih (min a b)).1 (min_le_left a b), ?_⟩
    intro x hx
    rcases List.mem_cons.mp hx with rfl | hx
    · exact le_trans (ih (min a x)).1 (min_le_right a x)
    · exact (ih (min a b)).2 x hx

theorem listMin_le {l : List Nat} {x : Nat} (hx : x ∈ l) : listMin l ≤ x := by
  cases l with
  | nil => cases hx
  | cons y ys =>
    rcases List.mem_cons.mp hx with rfl | hx
    · exact (foldl_min_le ys x).1
    · exact (foldl_min_le ys y).2 x hx

theorem mem_insertUnique {x y : Nat} {l : List Nat} :
    y ∈ insertUnique x l ↔ y = x ∨ y ∈ l := by
  induction l with
  | nil => simp [insertUnique]
  | cons z zs ih =>
    simp only [insertUnique]
    split
    · simp [List.mem_cons]
      try tauto
    · split
      · next h2 =>
        subst h2
        simp [List.mem_cons]
        try tauto
      · simp [List.mem_cons, ih]
        try tauto

theorem pairwise_insertUnique {x : Nat} {l : List Nat}
    (h : l.Pairwise (· < ·)) : (insertUnique x l).Pairwise (· < ·) := by
  induction l with
  | nil => simp [insertUnique]
  | cons z zs ih =>
    rcases List.pairwise_cons.mp h with ⟨hz, hzs⟩
    simp only [insertUnique]
    split
    · next h1 =>
      refine List.pairwise_cons.mpr ⟨?_, h⟩
      intro b hb
      rcases List.mem_cons.mp hb with rfl | hb
      · exact h1
      · exact lt_trans h1 (hz b hb)
    · next h1 =>
      split
      · exact h
      · next h2 =>
        refine List.pairwise_cons.mpr ⟨?_, ih hzs⟩
        intro b hb
        rcases mem_insertUnique.mp hb with rfl | hb
        · omega
        · exact hz b hb

theorem pairwise_npUnique (l : List Nat) : (npUnique l).Pairwise (· < ·) := by
  induction l with
  | nil => exact List.Pairwise.nil
  | cons x xs ih => exact pairwise_insertUnique ih

theorem mem_npUnique {y : Nat} {l : List Nat} : y ∈ npUnique l ↔ y ∈ l := by
  induction l with
  | nil => simp [npUnique]
  | cons x xs ih =>
    show y ∈ insertUnique x (npUnique xs) ↔ _
    rw [mem_insertUnique, ih]
    simp [List.mem_cons]

theorem nodup_npUnique (l : List Nat) : (npUnique l).Nodup :=
  (pairwise_npUnique l).imp (fun h => Nat.ne_of_lt h)

theorem npUnique_head_le {l : List Nat} {x m : Nat} (hx : x ∈ l)
    (hm : (npUnique l).head? = some m) : m ≤ x := by
  have hmem : x ∈ npUnique l := mem_npUnique.mpr hx
  have hp := pairwise_npUnique l
  cases h : npUnique l with
  | nil => rw [h] at hmem; cases hmem
  | cons a t =>
    rw [h] at hmem hp hm
    simp only [List.head?_cons, Option.some_inj] at hm
    subst hm
    rcases List.mem_cons.mp hmem with rfl | hx2
    · exact le_refl _
    · exact le_of_lt ((List.pairwise_cons.mp hp).1 x hx2)

/-! ### Lemmas: pop count and sums of distinct powers of two -/

theorem popCountW_zero (w : Nat) : popCountW w 0 = 0 := by
  induction w with
  | zero => rfl
  | succ u ih => simp [popCountW, ih]

theorem popCountW_eq_of_lt :
    ∀ {w w' n : Nat}, n < 2 ^ w → w ≤ w' → popCountW w' n = popCountW w n := by
  intro w
  induction w with
  | zero =>
    intro w' n hn _
    have : n = 0 := by simpa using hn
    subst this
    simp [popCountW_zero, popCountW]
  | succ u ih =>
    intro w' n hn hw
    cases w' with
    | zero => omega
    | succ u' =>
      show popCountW u' (n / 2) + n % 2 = popCountW u (n / 2) + n % 2
      have h2 : n / 2 < 2 ^ u := by
        rw [Nat.div_lt_iff_lt_mul (by omega)]
        calc n < 2 ^ (u + 1) := hn
        _ = 2 ^ u * 2 := by rw [pow_succ]
      rw [ih h2 (by omega)]

theorem popCountW_two_pow_add :
    ∀ (e : Nat) {n w : Nat}, n < 2 ^ e → e < w →
      popCountW w (2 ^ e + n) = 1 + popCountW w n := by
  intro e
  induction e with
  | zero =>
    intro n w hn hw
    have h0 : n = 0 := by simpa using hn
    subst h0
    cases w with
    | zero => omega
    | succ u => simp [popCountW, popCountW_zero]
  | succ e ih =>
    intro n w hn hw
    cases w with
    | zero => omega
    | succ u =>
      show popCountW u ((2 ^ (e + 1) + n) / 2) + (2 ^ (e + 1) + n) % 2 =
        1 + (popCountW u (n / 2) + n % 2)
      have hpow : (2 : Nat) ^ (e + 1) = 2 * 2 ^ e := by rw [pow_succ]; ring
      have hmod : (2 ^ (e + 1) + n) % 2 = n % 2 := by
        rw [hpow, Nat.mul_add_mod]
      have hdiv : (2 ^ (e + 1) + n) / 2 = 2 ^ e + n / 2 := by
        rw [hpow, Nat.mul_add_div (by omega)]
      have h2 : n / 2 < 2 ^ e := by
        rw [Nat.div_lt_iff_lt_mul (by omega)]
        calc n < 2 ^ (e + 1) := hn
        _ = 2 ^ e * 2 := by rw [pow_succ]
      rw [hmod, hdiv, ih h2 (by omega)]
      omega

theorem bitLenAux_zero (fuel : Nat) : bitLenAux fuel 0 = 0 := by
  cases fuel <;> rfl

theorem bitLenAux_fuel_irrel :
    ∀ (f1 f2 n : Nat), n ≤ f1 → n ≤ f2 → bitLenAux f1 n = bitLenAux f2 n := by
  intro f1
  induction f1 with
  | zero =>
    intro f2 n h1 _
    have h0 : n = 0 := by omega
    subst h0
    rw [bitLenAux_zero, bitLenAux_zero]
  | succ g ih =>
    intro f2 n h1 h2
    cases n with
    | zero => rw [bitLenAux_zero, bitLenAux_zero]
    | succ m =>
      cases f2 with
      | zero => omega
      | succ g2 =>
        show bitLenAux g ((m + 1) / 2) + 1 = bitLenAux g2 ((m + 1) / 2) + 1
        rw [ih g2 ((m + 1) / 2) (by omega) (by omega)]

theorem bitLen_succ (m : Nat) : bitLen (m + 1) = bitLen ((m + 1) / 2) + 1 := by
  show bitLenAux m ((m + 1) / 2) + 1 = bitLenAux ((m + 1) / 2) ((m + 1) / 2) + 1
  rw [bitLenAux_fuel_irrel m ((m + 1) / 2) ((m + 1) / 2) (by omega) (by omega)]

theorem lt_two_pow_bitLen (n : Nat) : n < 2 ^ bitLen n := by
  induction n using Nat.strong_induction_on with
  | _ n ih =>
    cases n with
    | zero => simp [bitLen, bitLenAux]
    | succ m =>
      rw [bitLen_succ]
      have hd : (m + 1) / 2 < m + 1 := by omega
      have hih := ih _ hd
      have hp : (2 : Nat) ^ (bitLen ((m + 1) / 2) + 1) =
          2 * 2 ^ bitLen ((m + 1) / 2) := by
        rw [pow_succ]; ring
      omega

theorem bitLen_le_of_lt {n w : Nat} (h : n < 2 ^ w) : bitLen n ≤ w := by
  induction w generalizing n with
  | zero =>
    have h0 : n = 0 := by simpa using h
    subst h0
    simp [bitLen, bitLenAux]
  | succ u ih =>
    cases n with
    | zero => simp [bitLen, bitLenAux]
    | succ m =>
      rw [bitLen_succ]
      have h2 : (m + 1) / 2 < 2 ^ u := by
        have hp : (2 : Nat) ^ (u + 1) = 2 * 2 ^ u := by rw [pow_succ]; ring
        omega
      have := ih h2
      omega

theorem popCount_two_pow_add {e n : Nat} (h : n < 2 ^ e) :
    popCount (2 ^ e + n) = 1 + popCount n := by
  unfold popCount
  have he : e < bitLen (2 ^ e + n) := by
    by_contra hc
    have h1 : 2 ^ e + n < 2 ^ bitLen (2 ^ e + n) := lt_two_pow_bitLen _
    have h2 : (2 : Nat) ^ bitLen (2 ^ e + n) ≤ 2 ^ e :=
      Nat.pow_le_pow_right (by omega) (by omega)
    omega
  rw [popCountW_two_pow_add e h he]
  congr 1
  have hn1 : n < 2 ^ bitLen n := lt_two_pow_bitLen n
  have hn2 : n < 2 ^ bitLen (2 ^ e + n) := by
    have h1 := lt_two_pow_bitLen (2 ^ e + n)
    omega
  exact popCountW_eq_of_lt hn1 (bitLen_le_of_lt hn2)

theorem expSum_cons (e : Nat) (es : List Nat) :
    expSum (e :: es) = 2 ^ e + expSum es := by
  simp [expSum]

theorem expSum_lt {es : List Nat} {e : Nat} (hp : es.Pairwise (· > ·))
    (hb : ∀ x ∈ es, x < e) : expSum es < 2 ^ e := by
  induction es generalizing e with
  | nil => simpa [expSum] using Nat.two_pow_pos e
  | cons a t ih =>
    rcases List.pairwise_cons.mp hp with ⟨ha, ht⟩
    have h1 : expSum t < 2 ^ a := ih ht (fun x hx => ha x hx)
    have h2 : a < e := hb a (List.mem_cons_self a t)
    have h3 : (2 : Nat) ^ (a + 1) ≤ 2 ^ e := Nat.pow_le_pow_right (by omega) (by omega)
    have h4 : (2 : Nat) ^ (a + 1) = 2 ^ a * 2 := by rw [pow_succ]
    rw [expSum_cons]
    omega

theorem popCount_expSum {es : List Nat} (hp : es.Pairwise (· > ·)) :
    popCount (expSum es) = es.length := by
  induction es with
  | nil => rfl
  | cons a t ih =>
    rcases List.pairwise_cons.mp hp with ⟨ha, ht⟩
    rw [expSum_cons, popCount_two_pow_add (expSum_lt ht ha), ih ht]
    simp [List.length_cons]
    try omega

theorem expSum_reverse (es : List Nat) : expSum es.reverse = expSum es := by
  simp [expSum, List.map_reverse, List.sum_reverse]

/-! ### Lemmas: indexing helpers -/

theorem getD_map_of_lt {l : List α} (f : α → β) {v : Nat} (hv : v < l.length)
    (d : α) (d' : β) : (l.map f).getD v d' = f (l.getD v d) := by
  rw [List.getD_eq_getD_get?, List.getD_eq_getD_get?, List.get?_map]
  cases h : l.get? v with
  | none => exact absurd (List.get?_eq_none.mp h) (by omega)
  | some a => rfl

theorem getD_mem {l : List α} {i : Nat} (h : i < l.length) (d : α) :
    l.getD i d ∈ l := by
  rw [List.getD_eq_getD_get?]
  cases hh : l.get? i with
  | none => exact absurd (List.get?_eq_none.mp hh) (by omega)
  | some a => exact List.get?_mem hh

theorem get?_map_enum (l : List α) (q : Nat × α → β) (i : Nat) :
    (l.enum.map q).get? i = (l.get? i).map (fun x => q (i, x)) := by
  rw [List.get?_map, List.get?_enum]
  cases l.get? i <;> rfl

theorem lt_of_consec_lt {f : Nat → Nat} {n : Nat}
    (h : ∀ i, i + 1 < n → f i < f (i + 1)) :
    ∀ i j, i < j → j < n → f i < f j := by
  intro i j
  induction j with
  | zero => intro h1 _; omega
  | succ k ih =>
    intro hij hjn
    rcases Nat.lt_succ_iff_lt_or_eq.mp hij with hlt | rfl
    · exact lt_trans (ih hlt (by omega)) (h k hjn)
    · exact h i hjn

theorem pairwise_lt_range_map {f : Nat → Nat} {n : Nat}
    (h : ∀ i j, i < j → j < n → f i < f j) :
    ((List.range n).map f).Pairwise (· < ·) := by
  refine List.pairwise_iff_getElem.mpr ?_
  intro i j hi hj hij
  simp only [List.getElem_map, List.getElem_range]
  simp only [List.length_map, List.length_range] at hj
  exact h i j hij hj

/-! ### Lemmas: the entries of the labels block -/

theorem fb2_exp_map (fb : List (List Nat)) {lbLen v : Nat}
    (hlen : ∀ row ∈ fb, row.length = lbLen) (hv : v < lbLen) :
    (fb.enum.map (fun p => p.2.map (fun x => x - 1 + p.1))).map
        (fun row => 2 ^ row.getD v 0) =
      (List.range fb.length).map
        (fun i => 2 ^ ((fb.getD i []).getD v 0 - 1 + i)) := by
  rw [List.map_map]
  apply List.ext_get?
  intro i
  rw [List.get?_map, List.get?_map, List.get?_enum]
  cases h : fb.get? i with
  | none =>
    have hi : fb.length ≤ i := List.get?_eq_none.mp h
    rw [List.get?_eq_none.mpr (by simpa using hi)]
    rfl
  | some row =>
    have hi : i < fb.length := by
      by_contra hc
      rw [List.get?_eq_none.mpr (by omega)] at h
      cases h
    rw [List.get?_range hi]
    have hrow : fb.getD i [] = row := by
      rw [List.getD_eq_getD_get?, h]; rfl
    have hvr : v < row.length := by rw [hlen row (List.get?_mem h)]; exact hv
    simp only [Option.map_some', Function.comp]
    rw [getD_map_of_lt _ hvr 0 0, hrow]

theorem labels_getD (lb : List Nat) (fb : List (List Nat)) {v : Nat}
    (hlen : ∀ row ∈ fb, row.length = lb.length) (hv : v < lb.length) :
    (get_labels_block lb fb).labels.getD v 0 =
      2 ^ (lb.getD v 0 - listMin lb + fb.length + 2) +
        ((List.range fb.length).map
          (fun i => 2 ^ ((fb.getD i []).getD v 0 - 1 + i))).sum := by
  have h1 : (get_labels_block lb fb).labels.getD v 0 =
      2 ^ (lb.map (fun x => x - listMin lb + fb.length + 2)).getD v 0 +
        ((fb.enum.map (fun p => p.2.map (fun x => x - 1 + p.1))).map
          (fun row => 2 ^ row.getD v 0)).sum := by
    show ((List.range lb.length).map _).getD v 0 = _
    rw [List.getD_eq_getD_get?, List.get?_map, List.get?_range hv]
    simp [List.map_cons, List.sum_cons]
  rw [h1, getD_map_of_lt _ hv 0 0, fb2_exp_map fb hlen hv]

/-! ### Claim C1 -/

/-- Claim C1 (amended): every label built by `get_labels_block` has
exactly `n_faults + 1` set bits PROVIDED no two consecutive fault layers
carry the sides `(2, 1)` at the voxel; in that excluded case the two
fault layers contribute the same bit position `i + 1` and their powers
of two merge, losing a set bit.  (The original claim asserts the bit
count unconditionally, which fails; see the counterexample.) -/
theorem claim_C1_amended (lb : List Nat) (fb : List (List Nat)) (v : Nat)
    (hlen : ∀ row ∈ fb, row.length = lb.length)
    (hvals : ∀ row ∈ fb, ∀ x ∈ row, x = 1 ∨ x = 2)
    (hv : v < lb.length)
    (hnc : ∀ i, i < fb.length - 1 →
      ¬((fb.getD i []).getD v 0 = 2 ∧ (fb.getD (i + 1) []).getD v 0 = 1)) :
    popCount ((get_labels_block lb fb).labels.getD v 0) = fb.length + 1 := by
  have hlab := labels_getD lb fb hlen hv
  have key : (get_labels_block lb fb).labels.getD v 0 =
      expSum ((lb.getD v 0 - listMin lb + fb.length + 2) ::
        ((List.range fb.length).map
          (fun i => (fb.getD i []).getD v 0 - 1 + i)).reverse) := by
    rw [expSum_cons, expSum_reverse, hlab]
    congr 1
    simp only [expSum, List.map_map]
    rfl
  -- the fault exponents are strictly increasing
  have hconsec : ∀ i, i + 1 < fb.length →
      (fun i => (fb.getD i []).getD v 0 - 1 + i) i <
        (fun i => (fb.getD i []).getD v 0 - 1 + i) (i + 1) := by
    intro i hi
    have hrow1 : fb.getD i [] ∈ fb := getD_mem (by omega) []
    have hrow2 : fb.getD (i + 1) [] ∈ fb := getD_mem (by omega) []
    have hx1 : (fb.getD i []).getD v 0 ∈ fb.getD i [] := by
      refine getD_mem ?_ 0
      rw [hlen _ hrow1]; exact hv
    have hx2 : (fb.getD (i + 1) []).getD v 0 ∈ fb.getD (i + 1) [] := by
      refine getD_mem ?_ 0
      rw [hlen _ hrow2]; exact hv
    have hnci := hnc i (by omega)
    have h1 := hvals _ hrow1 _ hx1
    have h2 := hvals _ hrow2 _ hx2
    show (fb.getD i []).getD v 0 - 1 + i < (fb.getD (i + 1) []).getD v 0 - 1 + (i + 1)
    rcases h1 with h1 | h1 <;> rcases h2 with h2 | h2 <;> omega
  have hpair : ((lb.getD v 0 - listMin lb + fb.length + 2) ::
      ((List.range fb.length).map
        (fun i => (fb.getD i []).getD v 0 - 1 + i)).reverse).Pairwise (· > ·) := by
    refine List.pairwise_cons.mpr ⟨?_, ?_⟩
    · intro b hb
      rw [List.mem_reverse] at hb
      rcases List.mem_map.mp hb with ⟨i, hi, rfl⟩
      have hin : i < fb.length := List.mem_range.mp hi
      have hrow : fb.getD i [] ∈ fb := getD_mem (by omega) []
      have hvr : v < (fb.getD i []).length := by
        rw [hlen _ hrow]; exact hv
      have hx : (fb.getD i []).getD v 0 ∈ fb.getD i [] := getD_mem hvr 0
      have hval := hvals _ hrow _ hx
      show (fb.getD i []).getD v 0 - 1 + i < lb.getD v 0 - listMin lb + fb.length + 2
      rcases hval with h1 | h1 <;> omega
    · refine List.pairwise_reverse.mpr ?_
      have hmono := pairwise_lt_range_map (lt_of_consec_lt hconsec)
      exact hmono.imp (fun h => h)
  rw [key, popCount_expSum hpair]
  simp

/-- Claim C1 (counterexample): for the valid input `lb = [1]`,
`fb = [[2], [1]]` (two faults, sides in `{1, 2}`), the single voxel's
label is `2^4 + 2^1 + 2^1 = 20`, whose binary representation has only 2
set bits, not `n_faults + 1 = 3`: consecutive fault axes share bit 1. -/
theorem claim_C1_counterexample :
    popCount ((get_labels_block [1] [[2], [1]]).labels.getD 0 0) ≠
      ([[2], [1]] : List (List Nat)).length + 1 := by decide

/-- Claim C1 (witness): the amended theorem applied at `lb = [1]`,
`fb = [[1], [2]]`, where no consecutive `(2, 1)` side pattern occurs and
the label `2^4 + 2^0 + 2^2 = 21` indeed has 3 set bits. -/
theorem claim_C1_witness :
    popCount ((get_labels_block [1] [[1], [2]]).labels.getD 0 0) =
      ([[1], [2]] : List (List Nat)).length + 1 :=
  claim_C1_amended [1] [[1], [2]] 0 (by decide) (by decide) (by decide)
    (by decide)

/-! ### Lemmas: fixed-width binary strings -/

theorem length_bitsFix (w n : Nat) : (bitsFix w n).length = w := by
  induction w generalizing n with
  | zero => rfl
  | succ u ih => simp [bitsFix, ih]

theorem bitsFix_append (u k n : Nat) :
    bitsFix (u + k) n = bitsFix u (n / 2 ^ k) ++ bitsFix k n := by
  induction k generalizing n with
  | zero => simp [bitsFix]
  | succ j ih =>
    show bitsFix (u + j) (n / 2) ++ _ = _
    rw [ih (n / 2)]
    have hd : n / 2 / 2 ^ j = n / 2 ^ (j + 1) := by
      rw [Nat.div_div_eq_div_mul]
      congr 1
      rw [pow_succ]
      ring
    rw [hd, List.append_assoc]
    rfl

theorem bitsFix_of_dvd : ∀ (k n : Nat), 2 ^ k ∣ n → bitsFix k n = List.replicate k '0' := by
  intro k
  induction k with
  | zero => intro n _; rfl
  | succ j ih =>
    intro n hd
    have h2 : n % 2 = 0 := by
      rw [← Nat.dvd_iff_mod_eq_zero]
      exact dvd_trans (Dvd.intro (2 ^ j) (by rw [pow_succ]; ring)) hd
    have hdvd2 : 2 ^ j ∣ n / 2 := by
      rcases hd with ⟨c, rfl⟩
      have he : 2 ^ (j + 1) * c / 2 = 2 ^ j * c := by
        rw [pow_succ]
        rw [show 2 ^ j * 2 * c = 2 * (2 ^ j * c) by ring]
        exact Nat.mul_div_cancel_left _ (by omega)
      rw [he]
      exact Dvd.intro c rfl
    show bitsFix j (n / 2) ++ [if n % 2 = 1 then '1' else '0'] =
      List.replicate (j + 1) '0'
    rw [ih _ hdvd2, h2, List.replicate_succ']
    rfl

theorem bitsFix_inj : ∀ (w m n : Nat), m < 2 ^ w → n < 2 ^ w →
    bitsFix w m = bitsFix w n → m = n := by
  intro w
  induction w with
  | zero =>
    intro m n hm hn _
    simp at hm hn
    omega
  | succ u ih =>
    intro m n hm hn heq
    have hlen : (bitsFix u (m / 2)).length = (bitsFix u (n / 2)).length := by
      rw [length_bitsFix, length_bitsFix]
    have hpow : (2 : Nat) ^ (u + 1) = 2 ^ u * 2 := by rw [pow_succ]
    have hmb : m / 2 < 2 ^ u := by omega
    have hnb : n / 2 < 2 ^ u := by omega
    have h1 := (List.append_inj heq hlen).1
    have h2 := (List.append_inj heq hlen).2
    have hdiv : m / 2 = n / 2 := ih _ _ hmb hnb h1
    have hmod : m % 2 = n % 2 := by
      by_cases hm2 : m % 2 = 1 <;> by_cases hn2 : n % 2 = 1 <;>
        simp [hm2, hn2] at h2 <;> omega
    omega

theorem length_zfill (w : Nat) (s : List Char) :
    (zfill w s).length = max w s.length := by
  simp [zfill]
  omega

theorem bitLen_two_pow (i : Nat) : bitLen (2 ^ i) = i + 1 := by
  have hpow : (2 : Nat) ^ (i + 1) = 2 ^ i * 2 := by rw [pow_succ]
  have hpos := Nat.two_pow_pos i
  have h1 : (2 : Nat) ^ i < 2 ^ (i + 1) := by omega
  have h2 := bitLen_le_of_lt h1
  have h3 := lt_two_pow_bitLen (2 ^ i)
  by_contra hc
  have h4 : bitLen (2 ^ i) ≤ i := by omega
  have h5 : (2 : Nat) ^ bitLen (2 ^ i) ≤ 2 ^ i := Nat.pow_le_pow_right (by omega) h4
  omega

theorem zfill_binRepr {w n : Nat} (hw : 1 ≤ w) (hn : n < 2 ^ w) :
    zfill w (binRepr n) = bitsFix w n := by
  by_cases h0 : n = 0
  · subst h0
    rw [binRepr, if_pos rfl]
    rw [bitsFix_of_dvd w 0 (dvd_zero _)]
    show List.replicate (w - 1) '0' ++ ['0'] = List.replicate w '0'
    rw [← List.replicate_succ']
    congr 1
    omega
  · rw [binRepr, if_neg h0]
    have hsz : bitLen n ≤ w := bitLen_le_of_lt hn
    have hdiv : n / 2 ^ bitLen n = 0 := Nat.div_eq_of_lt (lt_two_pow_bitLen n)
    have hw2 : (w - bitLen n) + bitLen n = w := by omega
    have hr : bitsFix w n = List.replicate (w - bitLen n) '0' ++ bitsFix (bitLen n) n := by
      calc bitsFix w n = bitsFix ((w - bitLen n) + bitLen n) n := by rw [hw2]
      _ = bitsFix (w - bitLen n) (n / 2 ^ bitLen n) ++ bitsFix (bitLen n) n :=
        bitsFix_append _ _ n
      _ = List.replicate (w - bitLen n) '0' ++ bitsFix (bitLen n) n := by
        rw [hdiv, bitsFix_of_dvd _ 0 (dvd_zero _)]
    rw [hr]
    show List.replicate (w - (bitsFix (bitLen n) n).length) '0' ++ _ = _
    rw [length_bitsFix]

/-! ### Lemmas: Python substring containment -/

theorem isPrefixOf_length_le {p : List Char} :
    ∀ {l : List Char}, p.isPrefixOf l = true → p.length ≤ l.length := by
  induction p with
  | nil => intro l _; simp
  | cons a as ih =>
    intro l h
    cases l with
    | nil => simp [List.isPrefixOf] at h
    | cons b bs =>
      simp only [List.isPrefixOf, Bool.and_eq_true] at h
      have := ih h.2
      simp only [List.length_cons]
      omega

theorem isPrefixOf_eq_of_length {p : List Char} :
    ∀ {l : List Char}, p.isPrefixOf l = true → p.length = l.length → p = l := by
  induction p with
  | nil =>
    intro l _ hl
    cases l with
    | nil => rfl
    | cons b bs => simp at hl
  | cons a as ih =>
    intro l h hl
    cases l with
    | nil => simp at hl
    | cons b bs =>
      simp only [List.isPrefixOf, Bool.and_eq_true, beq_iff_eq] at h
      simp only [List.length_cons] at hl
      rw [h.1, ih h.2 (by omega)]

theorem isPrefixOf_self (l : List Char) : l.isPrefixOf l = true := by
  induction l with
  | nil => rfl
  | cons a as ih => simp [List.isPrefixOf, ih]

theorem listContains_length_le {p : List Char} :
    ∀ {l : List Char}, listContains p l = true → p.length ≤ l.length := by
  intro l
  induction l with
  | nil =>
    intro h
    simp only [listContains, List.isEmpty_iff] at h
    simp [h]
  | cons c t ih =>
    intro h
    simp only [listContains, Bool.or_eq_true] at h
    rcases h with h | h
    · exact isPrefixOf_length_le h
    · have := ih h
      simp only [List.length_cons]
      omega

theorem listContains_eq_of_length {p l : List Char}
    (h : listContains p l = true) (hl : p.length = l.length) : p = l := by
  cases l with
  | nil =>
    simp only [listContains, List.isEmpty_iff] at h
    exact h
  | cons c t =>
    simp only [listContains, Bool.or_eq_true] at h
    rcases h with h | h
    · exact isPrefixOf_eq_of_length h hl
    · have h2 := listContains_length_le h
      simp only [List.length_cons] at hl
      exact absurd h2 (by omega)

theorem listContains_self (p : List Char) : listContains p p = true := by
  cases p with
  | nil => rfl
  | cons c t =>
    simp only [listContains, Bool.or_eq_true]
    exact Or.inl (isPrefixOf_self _)

theorem listContains_nil (l : List Char) : listContains [] l = true := by
  cases l <;> rfl

theorem countP_le_one {l : List α} {p : α → Bool} (hl : l.Nodup)
    (h : ∀ a ∈ l, ∀ b ∈ l, p a = true → p b = true → a = b) :
    l.countP p ≤ 1 := by
  induction l with
  | nil => simp
  | cons x t ih =>
    rcases List.nodup_cons.mp hl with ⟨hx, ht⟩
    rw [List.countP_cons]
    by_cases hpx : p x = true
    · have hz : t.countP p = 0 := by
        rw [List.countP_eq_zero]
        intro a ha hpa
        have hax : a = x := h a (by simp [ha]) x (by simp) hpa hpx
        subst hax
        exact hx ha
      simp [hz, hpx]
    · have := ih ht (fun a ha b hb => h a (by simp [ha]) b (by simp [hb]))
      simp [hpx]
      omega

/-! ### Lemmas: the lithology key table -/

theorem lithKeys_mem {nf nl : Nat} {kv : List Char × Nat}
    (h : kv ∈ lithKeys nf nl) :
    nf * 2 ≤ kv.2 ∧ kv.2 < nf * 2 + nl ∧
      kv.1 = bitsFix (nf * 2 + nl) (2 ^ kv.2) := by
  rcases List.mem_map.mp h with ⟨i, hi, rfl⟩
  rcases List.mem_range'_1.mp hi with ⟨h1, h2⟩
  refine ⟨h1, h2, ?_⟩
  show zfill (nf * 2 + nl) (binRepr (2 ^ i)) = _
  exact zfill_binRepr (by omega) (Nat.pow_lt_pow_right (by omega) (by omega))

theorem nofaultPattern_zero (node nl : Nat) : nofaultPattern node 0 nl = [] :=
  rfl

theorem nofaultPattern_of_pos (node nf nl : Nat) (hnf : nf ≠ 0) :
    nofaultPattern node nf nl =
      (zfill (nf * 2 + nl) (binRepr node)).take
        ((zfill (nf * 2 + nl) (binRepr node)).length - nf * 2) ++
      List.replicate (nf * 2) '0' := by
  unfold nofaultPattern
  rw [if_neg (by omega)]

theorem length_nofaultPattern (node nf nl : Nat) (hnf : nf ≠ 0) :
    (nofaultPattern node nf nl).length =
      (zfill (nf * 2 + nl) (binRepr node)).length := by
  rw [nofaultPattern_of_pos node nf nl hnf]
  rw [List.length_append, List.length_take, List.length_replicate]
  have := length_zfill (nf * 2 + nl) (binRepr node)
  omega

theorem nofaultPattern_length_ge (node nf nl : Nat) (hnf : nf ≠ 0) :
    nf * 2 + nl ≤ (nofaultPattern node nf nl).length := by
  rw [length_nofaultPattern node nf nl hnf, length_zfill]
  omega

/-! ### Lemmas: the dictionary model -/

theorem dictFind_dictInsert_self (l : List (Nat × Nat)) (k v : Nat) :
    dictFind k (dictInsert l k v) = some v := by
  induction l with
  | nil => simp [dictInsert, dictFind]
  | cons p t ih =>
    obtain ⟨k', v'⟩ := p
    by_cases h : k' = k
    · subst h
      simp [dictInsert, dictFind]
    · simp [dictInsert, dictFind, h, ih]

theorem dictFind_dictInsert_ne (l : List (Nat × Nat)) {k k' : Nat} (v : Nat)
    (h : k' ≠ k) : dictFind k (dictInsert l k' v) = dictFind k l := by
  induction l with
  | nil => simp [dictInsert, dictFind, h]
  | cons p t ih =>
    obtain ⟨k0, v0⟩ := p
    by_cases h0 : k0 = k'
    · subst h0
      simp [dictInsert, dictFind, h]
    · by_cases h1 : k0 = k
      · subst h1
        simp [dictInsert, dictFind, h0]
      · simp [dictInsert, dictFind, h0, h1, ih]

/-! ### Lemmas: the folds of get_lith_lot -/

theorem innerFold_find_other (node k : Nat) (pat : List Char)
    (kvs : List (List Char × Nat)) (lot : List (Nat × Nat)) (hk : k ≠ node) :
    dictFind k (kvs.foldl (fun lot2 kv =>
        if listContains pat kv.1 then dictInsert lot2 node kv.2 else lot2) lot) =
      dictFind k lot := by
  induction kvs generalizing lot with
  | nil => rfl
  | cons kv t ih =>
    rw [List.foldl_cons, ih]
    split
    · exact dictFind_dictInsert_ne lot kv.2 (Ne.symm hk)
    · rfl

theorem innerFold_no_match (node : Nat) (pat : List Char) :
    ∀ (kvs : List (List Char × Nat)) (lot : List (Nat × Nat)),
      (∀ kv ∈ kvs, ¬ listContains pat kv.1 = true) →
      kvs.foldl (fun lot2 kv =>
        if listContains pat kv.1 then dictInsert lot2 node kv.2 else lot2) lot =
        lot := by
  intro kvs
  induction kvs with
  | nil => intro lot _; rfl
  | cons kv t ih =>
    intro lot h
    rw [List.foldl_cons, if_neg (h kv (by simp))]
    exact ih lot (fun x hx => h x (by simp [hx]))

theorem innerFold_match (node L : Nat) (pat : List Char) :
    ∀ (kvs : List (List Char × Nat)) (lot : List (Nat × Nat)),
      (∀ kv ∈ kvs, listContains pat kv.1 = true → kv.2 = L) →
      (∃ kv ∈ kvs, listContains pat kv.1 = true) →
      dictFind node (kvs.foldl (fun lot2 kv =>
        if listContains pat kv.1 then dictInsert lot2 node kv.2 else lot2) lot) =
        some L := by
  intro kvs
  induction kvs with
  | nil =>
    intro lot _ hex
    rcases hex with ⟨kv, h, _⟩
    cases h
  | cons kv t ih =>
    intro lot hval hex
    rw [List.foldl_cons]
    by_cases hm : listContains pat kv.1 = true
    · rw [if_pos hm]
      have hL : kv.2 = L := hval kv (by simp) hm
      by_cases hex2 : ∃ x ∈ t, listContains pat x.1 = true
      · exact ih _ (fun x hx hmx => hval x (by simp [hx]) hmx) hex2
      · have hnone : ∀ x ∈ t, ¬ listContains pat x.1 = true := by
          intro x hx hmx
          exact hex2 ⟨x, hx, hmx⟩
        rw [innerFold_no_match node pat t _ hnone, hL]
        exact dictFind_dictInsert_self lot node L
    · rw [if_neg hm]
      have hex2 : ∃ x ∈ t, listContains pat x.1 = true := by
        rcases hex with ⟨x, hx, hmx⟩
        rcases List.mem_cons.mp hx with rfl | hx2
        · exact absurd hmx hm
        · exact ⟨x, hx2, hmx⟩
      exact ih _ (fun x hx hmx => hval x (by simp [hx]) hmx) hex2

theorem outerFold_find_notin (nf nl k : Nat) :
    ∀ (nodes : List Nat) (acc : List (Nat × Nat)), k ∉ nodes →
      dictFind k (nodes.foldl (fun lot node =>
        (lithKeys nf nl).foldl (fun lot2 kv =>
          if listContains (nofaultPattern node nf nl) kv.1 then
            dictInsert lot2 node kv.2
          else lot2) lot) acc) = dictFind k acc := by
  intro nodes
  induction nodes with
  | nil => intro acc _; rfl
  | cons x t ih =>
    intro acc hk
    rw [List.foldl_cons, ih _ (fun h => hk (by simp [h]))]
    exact innerFold_find_other x k _ (lithKeys nf nl) acc (fun h => hk (by simp [h]))

theorem outerFold_find_self (nf nl k L : Nat)
    (hval : ∀ kv ∈ lithKeys nf nl,
      listContains (nofaultPattern k nf nl) kv.1 = true → kv.2 = L)
    (hex : ∃ kv ∈ lithKeys nf nl,
      listContains (nofaultPattern k nf nl) kv.1 = true) :
    ∀ (nodes : List Nat) (acc : List (Nat × Nat)), k ∈ nodes → nodes.Nodup →
      dictFind k (nodes.foldl (fun lot node =>
        (lithKeys nf nl).foldl (fun lot2 kv =>
          if listContains (nofaultPattern node nf nl) kv.1 then
            dictInsert lot2 node kv.2
          else lot2) lot) acc) = some L := by
  intro nodes
  induction nodes with
  | nil =>
    intro acc h _
    cases h
  | cons x t ih =>
    intro acc hm hnd
    rcases List.nodup_cons.mp hnd with ⟨hx, ht⟩
    rw [List.foldl_cons]
    rcases List.mem_cons.mp hm with rfl | hmt
    · rw [outerFold_find_notin nf nl k t _ hx]
      exact innerFold_match k L _ (lithKeys nf nl) acc hval hex
    · exact ih _ hmt ht

/-! ### Lemmas: the zero-masked pattern of a well-formed label -/

theorem take_append_length (A B : List Char) (m : Nat) (hm : A.length = m) :
    (A ++ B).take m = A := by
  subst hm
  exact List.take_left A B

theorem take_bitsFix (w k n : Nat) (hk : k ≤ w) :
    (bitsFix w n).take (w - k) = bitsFix (w - k) (n / 2 ^ k) := by
  have hwk : (w - k) + k = w := by omega
  have h := bitsFix_append (w - k) k n
  rw [hwk] at h
  rw [h]
  exact take_append_length _ _ _ (length_bitsFix _ _)

theorem nofaultPattern_pow_add {nf nl L r : Nat} (hnf : nf ≠ 0)
    (hr : r < 2 ^ (nf * 2)) (hL1 : nf * 2 ≤ L) (hL2 : L < nf * 2 + nl) :
    nofaultPattern (2 ^ L + r) nf nl = bitsFix (nf * 2 + nl) (2 ^ L) := by
  have hrL : r < 2 ^ L := lt_of_lt_of_le hr (Nat.pow_le_pow_right (by omega) hL1)
  have hp1 : (2 : Nat) ^ (L + 1) = 2 ^ L * 2 := by rw [pow_succ]
  have hnode : 2 ^ L + r < 2 ^ (nf * 2 + nl) := by
    have h2 : (2 : Nat) ^ (L + 1) ≤ 2 ^ (nf * 2 + nl) :=
      Nat.pow_le_pow_right (by omega) (by omega)
    omega
  have hzf : zfill (nf * 2 + nl) (binRepr (2 ^ L + r)) =
      bitsFix (nf * 2 + nl) (2 ^ L + r) :=
    zfill_binRepr (by omega) hnode
  have hpowL : (2 : Nat) ^ L = 2 ^ (nf * 2) * 2 ^ (L - nf * 2) := by
    rw [← pow_add]
    congr 1
    omega
  have hdivL : (2 ^ L + r) / 2 ^ (nf * 2) = 2 ^ (L - nf * 2) := by
    rw [hpowL, Nat.mul_add_div (Nat.two_pow_pos _), Nat.div_eq_of_lt hr]
    omega
  rw [nofaultPattern_of_pos _ _ _ hnf]
  rw [hzf, length_bitsFix, take_bitsFix _ _ _ (by omega), hdivL]
  have hsplit : bitsFix (nf * 2 + nl) (2 ^ L) =
      bitsFix ((nf * 2 + nl) - nf * 2) (2 ^ L / 2 ^ (nf * 2)) ++
        bitsFix (nf * 2) (2 ^ L) := by
    have hwk : ((nf * 2 + nl) - nf * 2) + nf * 2 = nf * 2 + nl := by omega
    calc bitsFix (nf * 2 + nl) (2 ^ L)
        = bitsFix (((nf * 2 + nl) - nf * 2) + nf * 2) (2 ^ L) := by rw [hwk]
    _ = _ := bitsFix_append _ _ _
  have hdiv2 : (2 : Nat) ^ L / 2 ^ (nf * 2) = 2 ^ (L - nf * 2) := by
    rw [hpowL]
    exact Nat.mul_div_cancel_left _ (Nat.two_pow_pos _)
  have hz : bitsFix (nf * 2) (2 ^ L) = List.replicate (nf * 2) '0' :=
    bitsFix_of_dvd _ _ (pow_dvd_pow 2 hL1)
  rw [hsplit, hdiv2, hz]

theorem lithKeys_match_iff {nf nl L r : Nat} (hnf : nf ≠ 0)
    (hr : r < 2 ^ (nf * 2)) (hL1 : nf * 2 ≤ L) (hL2 : L < nf * 2 + nl) :
    (∀ kv ∈ lithKeys nf nl,
      listContains (nofaultPattern (2 ^ L + r) nf nl) kv.1 = true → kv.2 = L) ∧
    (∃ kv ∈ lithKeys nf nl,
      listContains (nofaultPattern (2 ^ L + r) nf nl) kv.1 = true) := by
  have hpat := nofaultPattern_pow_add hnf hr hL1 hL2
  constructor
  · intro kv hkv hm
    rcases lithKeys_mem hkv with ⟨h1, h2, h3⟩
    rw [hpat] at hm
    have hlenk : kv.1.length = nf * 2 + nl := by rw [h3, length_bitsFix]
    have heq : bitsFix (nf * 2 + nl) (2 ^ L) = kv.1 := by
      refine listContains_eq_of_length hm ?_
      rw [length_bitsFix, hlenk]
    have hpow : (2 : Nat) ^ L = 2 ^ kv.2 := by
      refine bitsFix_inj (nf * 2 + nl) _ _ ?_ ?_ ?_
      · exact Nat.pow_lt_pow_right (by omega) (by omega)
      · exact Nat.pow_lt_pow_right (by omega) (by omega)
      · rw [h3] at heq
        exact heq
    exact (Nat.pow_right_injective (by omega) hpow).symm
  · refine ⟨(zfill (nf * 2 + nl) (binRepr (2 ^ L)), L), ?_, ?_⟩
    · show _ ∈ (List.range' (nf * 2) nl).map _
      exact List.mem_map.mpr ⟨L, List.mem_range'_1.mpr ⟨hL1, hL2⟩, rfl⟩
    · show listContains (nofaultPattern (2 ^ L + r) nf nl)
        (zfill (nf * 2 + nl) (binRepr (2 ^ L))) = true
      rw [hpat, zfill_binRepr (by omega) (Nat.pow_lt_pow_right (by omega) hL2)]
      exact listContains_self _

/-! ### Claim C7 -/

/-- Claim C7 (counterexample): the node label 9 — produced by the valid
model `lb = [1]`, `fb = [[1]]` with one fault and one layer — matches
zero lithology templates (its lithology bit sits at position 3, while the
table only holds bit positions in `[2, 3)`), yet `get_lith_lot` returns
normally and silently omits the node from the mapping instead of
reporting a defect. -/
theorem claim_C7_counterexample :
    9 ∈ npUnique ((get_labels_block [1] [[1]]).labels) ∧
    dictFind 9 (get_lith_lot ((get_labels_block [1] [[1]]).labels) 1 1) =
      none := by decide

/-- Claim C7 (amended): `get_lith_lot` reports no defect in either
direction.  A node whose zero-masked binary pattern matches no template
is silently left out of the returned mapping (concretely, the one-fault
one-layer model yields the empty mapping although node 9 occurs).  For
`n_faults ≥ 1` matching more than one template is impossible — the
pattern is at least as long as the equal-width keys, so substring
containment forces string equality against pairwise-distinct keys.  For
`n_faults = 0`, however, Python's `node_bin[:-0]` is the empty string,
so the masked pattern is empty and matches every one of the `n_layers`
templates, and the node silently keeps the last match (concretely,
`get_lith_lot([1], 0, 2)` maps node 1, which matches both templates, to
the later bit position 1 with no defect reported). -/
theorem claim_C7_amended :
    (∀ (node n_faults n_layers : Nat), 1 ≤ n_faults →
      (lithKeys n_faults n_layers).countP
        (fun kv =>
          listContains (nofaultPattern node n_faults n_layers) kv.1) ≤ 1) ∧
    (∀ (node n_layers : Nat),
      (lithKeys 0 n_layers).countP
        (fun kv => listContains (nofaultPattern node 0 n_layers) kv.1) =
        n_layers) ∧
    (9 ∈ npUnique ((get_labels_block [1] [[1]]).labels) ∧
      get_lith_lot ((get_labels_block [1] [[1]]).labels) 1 1 = []) ∧
    get_lith_lot [1] 0 2 = [(1, 1)] := by
  refine ⟨?_, ?_, by decide, by decide⟩
  · intro node nf nl hnf
    apply countP_le_one
    · apply List.Nodup.map_on
      · intro x _ y _ hxy
        simpa using congrArg Prod.snd hxy
      · exact List.nodup_range' _ _
    · intro a ha b hb hpa hpb
      rcases lithKeys_mem ha with ⟨ha1, ha2, ha3⟩
      rcases lithKeys_mem hb with ⟨hb1, hb2, hb3⟩
      have hla : a.1.length = nf * 2 + nl := by rw [ha3, length_bitsFix]
      have hlb : b.1.length = nf * 2 + nl := by rw [hb3, length_bitsFix]
      have hple := nofaultPattern_length_ge node nf nl (by omega)
      have hA := listContains_length_le hpa
      have hB := listContains_length_le hpb
      have heqa : nofaultPattern node nf nl = a.1 :=
        listContains_eq_of_length hpa (by omega)
      have heqb : nofaultPattern node nf nl = b.1 :=
        listContains_eq_of_length hpb (by omega)
      have hkey : a.1 = b.1 := by rw [← heqa, heqb]
      have hpow : (2 : Nat) ^ a.2 = 2 ^ b.2 := by
        refine bitsFix_inj (nf * 2 + nl) _ _ ?_ ?_ ?_
        · exact Nat.pow_lt_pow_right (by omega) (by omega)
        · exact Nat.pow_lt_pow_right (by omega) (by omega)
        · rw [← ha3, ← hb3]; exact hkey
      have hsnd : a.2 = b.2 := Nat.pow_right_injective (by omega) hpow
      obtain ⟨ak, ai⟩ := a
      obtain ⟨bk, bi⟩ := b
      simp only at hkey hsnd
      rw [hkey, hsnd]
  · intro node nl
    have hall : ∀ kv ∈ lithKeys 0 nl,
        (fun kv : List Char × Nat =>
          listContains (nofaultPattern node 0 nl) kv.1) kv = true := by
      intro kv _
      rw [nofaultPattern_zero]
      exact listContains_nil kv.1
    rw [List.countP_eq_length.mpr hall]
    simp [lithKeys]

/-- Claim C7 (witness): the at-most-one-match bound of the amended
theorem at the concrete node 9 of the one-fault one-layer model. -/
theorem claim_C7_witness :
    (lithKeys 1 1).countP
      (fun kv => listContains (nofaultPattern 9 1 1) kv.1) ≤ 1 :=
  claim_C7_amended.1 9 1 1 (by decide)

/-! ### Claim C2 -/

/-- Claim C2 (counterexample): the round trip does not recover the
lithology id.  For `lb = [1, 2]`, `fb = [[1, 1], [1, 1]]` (two faults,
two layers), voxel 0 has lithology id 1 and label `2^4 + 2^0 + 2^1 = 19`,
but `get_lith_lot` maps label 19 to 4 — the lithology *bit position*
`lb - lb.min() + n_faults + 2` — not to the original value 1. -/
theorem claim_C2_counterexample :
    dictFind ((get_labels_block [1, 2] [[1, 1], [1, 1]]).labels.getD 0 0)
        (get_lith_lot ((get_labels_block [1, 2] [[1, 1], [1, 1]]).labels) 2 2) =
      some 4 ∧
    ([1, 2] : List Nat).getD 0 0 = 1 ∧ (4 : Nat) ≠ 1 := by decide

/-- Claim C2 (amended): for `n_faults = 2` (the only fault count where the
encoder's lithology offset `n_faults + 2` agrees with the decoder's
offset `n_faults * 2`), looking a voxel's label up in the mapping
returned by `get_lith_lot` yields the *shifted lithology bit position*
`lb[v] - lb.min() + 4`, not the raw lithology id `lb[v]`; this holds for
every lithology volume whose ids span at most `n_layers` values and every
fault stack with sides in `{1, 2}`. -/
theorem claim_C2_amended (lb r0 r1 : List Nat) (n_layers v : Nat)
    (h0 : r0.length = lb.length) (h1 : r1.length = lb.length)
    (hv0 : ∀ x ∈ r0, x = 1 ∨ x = 2) (hv1 : ∀ x ∈ r1, x = 1 ∨ x = 2)
    (hlb : ∀ x ∈ lb, x < listMin lb + n_layers)
    (hv : v < lb.length) :
    dictFind ((get_labels_block lb [r0, r1]).labels.getD v 0)
      (get_lith_lot ((get_labels_block lb [r0, r1]).labels) 2 n_layers) =
      some (lb.getD v 0 - listMin lb + 4) := by
  have hr0 : r0.getD v 0 = 1 ∨ r0.getD v 0 = 2 := hv0 _ (getD_mem (by omega) 0)
  have hr1 : r1.getD v 0 = 1 ∨ r1.getD v 0 = 2 := hv1 _ (getD_mem (by omega) 0)
  -- the label at voxel v, in the form 2 ^ L + r
  have hget : (get_labels_block lb [r0, r1]).labels.get? v =
      some (2 ^ (lb.map (fun x => x - listMin lb + 2 + 2)).getD v 0 +
        (2 ^ (r0.map (fun x => x - 1 + 0)).getD v 0 +
          (2 ^ (r1.map (fun x => x - 1 + 1)).getD v 0 + 0))) := by
    show ((List.range lb.length).map _).get? v = _
    rw [List.get?_map, List.get?_range hv]
    rfl
  have hx0m : (r0.map (fun x => x - 1 + 0)).getD v 0 = r0.getD v 0 - 1 + 0 :=
    getD_map_of_lt _ (by omega) 0 0
  have hx1m : (r1.map (fun x => x - 1 + 1)).getD v 0 = r1.getD v 0 - 1 + 1 :=
    getD_map_of_lt _ (by omega) 0 0
  have hlbm : (lb.map (fun x => x - listMin lb + 2 + 2)).getD v 0 =
      lb.getD v 0 - listMin lb + 2 + 2 :=
    getD_map_of_lt _ hv 0 0
  have hnode : (get_labels_block lb [r0, r1]).labels.getD v 0 =
      2 ^ (lb.getD v 0 - listMin lb + 4) +
        (2 ^ (r0.getD v 0 - 1) + 2 ^ (r1.getD v 0)) := by
    rw [List.getD_eq_getD_get?, hget]
    show 2 ^ _ + (2 ^ _ + (2 ^ _ + 0)) = _
    rw [hx0m, hx1m, hlbm]
    have e1 : r1.getD v 0 - 1 + 1 = r1.getD v 0 := by omega
    have e2 : r0.getD v 0 - 1 + 0 = r0.getD v 0 - 1 := by omega
    have e3 : lb.getD v 0 - listMin lb + 2 + 2 = lb.getD v 0 - listMin lb + 4 := by
      omega
    rw [e1, e2, e3]
    omega
  -- the decomposition satisfies the well-formedness bounds
  have hr16 : 2 ^ (r0.getD v 0 - 1) + 2 ^ (r1.getD v 0) < 2 ^ (2 * 2) := by
    rcases hr0 with hx0 | hx0 <;> rcases hr1 with hx1 | hx1 <;>
      rw [hx0, hx1] <;> decide
  have hL1 : 2 * 2 ≤ lb.getD v 0 - listMin lb + 4 := by omega
  have hL2 : lb.getD v 0 - listMin lb + 4 < 2 * 2 + n_layers := by
    have hmem := getD_mem hv (0 : Nat)
    have hb1 := hlb _ hmem
    have hb2 := listMin_le hmem
    omega
  have hmatch := lithKeys_match_iff (by decide) hr16 hL1 hL2
  have hmem2 : (get_labels_block lb [r0, r1]).labels.getD v 0 ∈
      npUnique ((get_labels_block lb [r0, r1]).labels) := by
    refine mem_npUnique.mpr (getD_mem ?_ 0)
    show v < ((List.range lb.length).map _).length
    rw [List.length_map, List.length_range]
    exact hv
  rw [hnode] at hmem2 ⊢
  exact outerFold_find_self 2 n_layers _ _ hmatch.1 hmatch.2
    (npUnique ((get_labels_block lb [r0, r1]).labels)) [] hmem2
    (nodup_npUnique _)

/-- Claim C2 (witness): the amended theorem applied to `lb = [1, 2]`,
`fb = [[1, 1], [2, 2]]`, `n_layers = 3`, voxel 1: its label maps to
`2 - 1 + 4 = 5`. -/
theorem claim_C2_witness :
    dictFind ((get_labels_block [1, 2] [[1, 1], [2, 2]]).labels.getD 1 0)
      (get_lith_lot ((get_labels_block [1, 2] [[1, 1], [2, 2]]).labels) 2 3) =
      some (([1, 2] : List Nat).getD 1 0 - listMin [1, 2] + 4) :=
  claim_C2_amended [1, 2] [1, 1] [2, 2] 3 1 (by decide) (by decide) (by decide)
    (by decide) (by decide) (by decide)

/-! ### Claim C4 -/

/-- Claim C4 (counterexample): `get_labels_block` is not a pure
transformation of its arguments.  On `lb = [1]`, `fb = [[2]]` the
in-place updates `fb -= 1; fb += arange(1)[None, :].T` leave `fb` holding
`[[1]]` after the call, and re-running on the same (now corrupted)
arrays produces the labels `[9]` instead of the original `[10]`. -/
theorem claim_C4_counterexample :
    (get_labels_block [1] [[2]]).fb_after ≠ [[2]] ∧
    (get_labels_block [1] ((get_labels_block [1] [[2]]).fb_after)).labels ≠
      (get_labels_block [1] [[2]]).labels := by decide

/-- Claim C4 (amended): `get_labels_block` leaves the `lb` argument array
unchanged, but mutates the `fb` argument array in place (each row `i`
ends up holding `fb[i] - 1 + i`); therefore re-running the pipeline on
the same argument arrays can change the labels, as the concrete run
`lb = [1]`, `fb = [[2]]` shows. -/
theorem claim_C4_amended :
    (∀ (lb : List Nat) (fb : List (List Nat)),
      (get_labels_block lb fb).lb_after = lb) ∧
    (get_labels_block [1] [[2]]).fb_after = [[1]] ∧
    (get_labels_block [1] [[2]]).labels = [10] ∧
    (get_labels_block [1] ((get_labels_block [1] [[2]]).fb_after)).labels = [9] :=
  ⟨fun _ _ => rfl, by decide, by decide, by decide⟩

/-! ### Claim C5 -/

/-- Claim C5 (counterexample): already for `n_faults = 1` the source's
sum-based skip differs from "exclude exactly the same-block selections":
the singleton selection `{1}` has sum `1`, which collides with the block
sum `0 + 1`, so the source drops the valid string '10' and returns only
`['01']`, while the spec's rule keeps both `['01', '10']`. -/
theorem claim_C5_counterexample :
    get_fault_label_comb_bin (get_fault_labels 1) ≠
      spec_fault_comb_bin (get_fault_labels 1) := by decide

/-- Claim C5 (amended): the sum-based exclusion of
`get_fault_label_comb_bin` coincides with the spec's "exclude exactly the
selections containing two ids of one fault block" at `n_faults = 2`,
where the pair pattern is `[[0, 1], [2, 3]]` and both rules produce the
documented `['0101', '1001', '0110', '1010']`; at `n_faults = 1` the code
loses the selection `{1}` (sum collision with block sum 1), and at
`n_faults = 3` the two rules diverge again (e.g. the same-block selection
`{0, 1, 2}` with sum 3 is kept while the valid transversal `{1, 3, 5}`
with sum 9 is dropped). -/
theorem claim_C5_amended :
    get_fault_labels 2 = [(0, 1), (2, 3)] ∧
    get_fault_label_comb_bin (get_fault_labels 2) =
      [['0', '1', '0', '1'], ['1', '0', '0', '1'],
       ['0', '1', '1', '0'], ['1', '0', '1', '0']] ∧
    spec_fault_comb_bin (get_fault_labels 2) =
      [['0', '1', '0', '1'], ['1', '0', '0', '1'],
       ['0', '1', '1', '0'], ['1', '0', '1', '0']] ∧
    get_fault_label_comb_bin (get_fault_labels 1) = [['0', '1']] ∧
    spec_fault_comb_bin (get_fault_labels 1) = [['0', '1'], ['1', '0']] ∧
    get_fault_label_comb_bin (get_fault_labels 3) ≠
      spec_fault_comb_bin (get_fault_labels 3) := by decide

/-! ### Lemmas: Option-valued folds -/

theorem optFold_preserve (P : β → Prop) {f : β → α → Option β} :
    ∀ (l : List α) (b b' : β), optFold f l b = some b' →
      (∀ x ∈ l, ∀ y y', f y x = some y' → P y → P y') → P b → P b' := by
  intro l
  induction l with
  | nil =>
    intro b b' h _ hb
    simp only [optFold, Option.some_inj] at h
    exact h ▸ hb
  | cons x t ih =>
    intro b b' h hstep hb
    simp only [optFold] at h
    cases hf : f b x with
    | none => rw [hf] at h; cases h
    | some b1 =>
      rw [hf] at h
      exact ih b1 b' h (fun y hy => hstep y (by simp [hy]))
        (hstep x (by simp) b b1 hf hb)

theorem nodup_setAdd {l : List (Nat × Nat)} {p : Nat × Nat} (h : l.Nodup) :
    (setAdd l p).Nodup := by
  unfold setAdd
  split
  · exact h
  · next hp =>
    rw [List.nodup_append]
    refine ⟨h, List.nodup_singleton p, ?_⟩
    intro a ha hb
    simp only [List.mem_singleton] at hb
    subst hb
    exact hp ha

/-! ### Claim C8 -/

/-- Claim C8 (counterexample): the edge set is deduplicated only under
*ordered* tuple identity.  On the 3×2×2 block `volC8` the x axis emits
the tuple `(2, 1)` and the y axis the mirrored tuple `(1, 2)`, and both
are kept, so the set contains both orientations of one unordered pair. -/
theorem claim_C8_counterexample :
    (get_edges (get_topo_block volC8 1) volC8 1).isSome = true ∧
    (1, 2) ∈ (get_edges (get_topo_block volC8 1) volC8 1).getD [] ∧
    (2, 1) ∈ (get_edges (get_topo_block volC8 1) volC8 1).getD [] ∧
    (1 : Nat) ≠ 2 := by decide

/-- Claim C8 (amended): the edge set returned by `get_edges` is
deduplicated under *ordered* tuple identity — no ordered tuple occurs
twice (Python set semantics) — but the two orientations `(a, b)` and
`(b, a)` of one unordered pair may both occur, as the counterexample
shows. -/
theorem claim_C8_amended (topo_block_f : List Arr3) (labels_block : Arr3)
    (n_shift : Nat) (es : List (Nat × Nat))
    (h : get_edges topo_block_f labels_block n_shift = some es) : es.Nodup := by
  refine optFold_preserve (fun l => l.Nodup) topo_block_f.enum [] es h ?_
    List.nodup_nil
  intro x hx y y' hf hy
  have hf' : optFold (fun acc2 edge_sum =>
      if edge_sum = 0 then some acc2
      else if shapeOf x.2 = shapeOf (shiftVol1 n_shift x.1 labels_block) ∧
          shapeOf x.2 = shapeOf (shiftVol2 n_shift x.1 labels_block) then
        match sideLabels x.2 (shiftVol1 n_shift x.1 labels_block) edge_sum,
            sideLabels x.2 (shiftVol2 n_shift x.1 labels_block) edge_sum with
        | a :: _, b :: _ => some (setAdd acc2 (a, b))
        | _, _ => none
      else none) (npUnique (flat3 x.2)) y = some y' := hf
  refine optFold_preserve (fun l => l.Nodup) _ y y' hf' ?_ hy
  intro s hs z z' hf2 hz
  split at hf2
  · cases hf2
    exact hz
  · split at hf2
    · split at hf2
      · cases hf2
        exact nodup_setAdd hz
      · cases hf2
    · cases hf2

/-- Claim C8 (witness): the amended theorem applied to the concrete run
on `volC8`. -/
theorem claim_C8_witness :
    ((get_edges (get_topo_block volC8 1) volC8 1).getD []).Nodup :=
  claim_C8_amended (get_topo_block volC8 1) volC8 1
    ((get_edges (get_topo_block volC8 1) volC8 1).getD []) (by decide)

/-! ### Claim C3 -/

/-- Claim C3 (counterexample): on the striped block `volC3` the x-axis
signature 3 selects voxels carrying the two distinct labels `[1, 2]` in
each half-shifted sub-volume (an ambiguous boundary), yet `get_edges`
does not fail: it returns normally, silently emitting `(1, 1)` — the
smallest label of each side — instead of surfacing a defect. -/
theorem claim_C3_counterexample :
    hasAmbiguity (get_topo_block volC3 1) volC3 1 = true ∧
    get_edges (get_topo_block volC3 1) volC3 1 = some [(1, 1), (2, 2)] := by
  decide

/-- Claim C3 (amended): `get_edges` does not detect ambiguous boundaries.
When the voxels of a signature carry several labels on a side, it
silently resolves the pair by taking element `[0]` of the sorted unique
array — the *minimum* candidate label (first conjunct) — and returns
normally, as the concrete ambiguous run on `volC3` shows: both sides of
signature 3 hold labels `[1, 2]` and the emitted pair is `(1, 1)`. -/
theorem claim_C3_amended :
    (∀ (l : List Nat) (x m : Nat), x ∈ l → (npUnique l).head? = some m → m ≤ x) ∧
    sideLabels ((get_topo_block volC3 1).getD 0 []) (shiftVol1 1 0 volC3) 3 =
      [1, 2] ∧
    sideLabels ((get_topo_block volC3 1).getD 0 []) (shiftVol2 1 0 volC3) 3 =
      [1, 2] ∧
    (1, 1) ∈ (get_edges (get_topo_block volC3 1) volC3 1).getD [] ∧
    (get_edges (get_topo_block volC3 1) volC3 1).isSome = true := by
  refine ⟨?_, by decide, by decide, by decide, by decide⟩
  intro l x m hx hm
  exact npUnique_head_le hx hm

/-- Claim C3 (witness): the first conjunct of the amended theorem applied
at the concrete side-label list `[2, 1]`. -/
theorem claim_C3_witness :
    (2 : Nat) ∈ [2, 1] ∧ (npUnique [2, 1]).head? = some 1 ∧ (1 : Nat) ≤ 2 :=
  ⟨by decide, by decide, claim_C3_amended.1 [2, 1] 2 1 (by decide) (by decide)⟩

/-! ### Lemmas: the boolean adjacency matrix -/

theorem pyIndex_lt {l : List (List Char)} {x : List Char} :
    ∀ {i : Nat}, pyIndex l x = some i → i < l.length := by
  induction l with
  | nil => intro i h; cases h
  | cons y ys ih =>
    intro i h
    by_cases he : y = x
    · simp only [pyIndex, if_pos he, Option.some_inj] at h
      simp only [List.length_cons]
      omega
    · simp only [pyIndex, if_neg he, Option.map_eq_some'] at h
      rcases h with ⟨a, ha, rfl⟩
      have := ih ha
      simp only [List.length_cons]
      omega

theorem matEntry_replicate (n a b : Nat) :
    matEntry (List.replicate n (List.replicate n false)) a b = false := by
  unfold matEntry
  cases h : (List.replicate n (List.replicate n false)).get? a with
  | none => rfl
  | some row =>
    have hrow : row = List.replicate n false :=
      List.eq_of_mem_replicate (List.get?_mem h)
    subst hrow
    simp only [Option.getD_some]
    cases h2 : (List.replicate n false).get? b with
    | none => rfl
    | some x =>
      have hx : x = false := List.eq_of_mem_replicate (List.get?_mem h2)
      simp [hx]

theorem squareN_matSet {m : List (List Bool)} {n i j : Nat}
    (hsq1 : m.length = n) (hsq2 : ∀ row ∈ m, row.length = n) (hi : i < n) :
    (matSet m i j).length = n ∧ ∀ row ∈ matSet m i j, row.length = n := by
  constructor
  · show (m.set i _).length = n
    rw [List.length_set]
    exact hsq1
  · intro row hrow
    rcases List.mem_or_eq_of_mem_set hrow with h | h
    · exact hsq2 row h
    · subst h
      cases hr : m.get? i with
      | none => exact absurd (List.get?_eq_none.mp hr) (by omega)
      | some r =>
        simp only [hr, Option.getD_some, List.length_set]
        exact hsq2 r (List.get?_mem hr)

theorem matEntry_matSet {m : List (List Bool)} {n : Nat}
    (hsq1 : m.length = n) (hsq2 : ∀ row ∈ m, row.length = n)
    {i j : Nat} (hi : i < n) (hj : j < n) (a b : Nat) :
    matEntry (matSet m i j) a b =
      if a = i ∧ b = j then true else matEntry m a b := by
  unfold matEntry matSet
  rw [List.get?_set]
  by_cases ha : i = a
  · subst ha
    cases hrow : m.get? i with
    | none => exact absurd (List.get?_eq_none.mp hrow) (by omega)
    | some r =>
      have hrl : r.length = n := hsq2 r (List.get?_mem hrow)
      simp only [eq_self_iff_true, if_true, true_and, Option.map_eq_map,
        Option.map_some', Option.getD_some]
      rw [List.get?_set]
      by_cases hb : b = j
      · subst hb
        simp only [eq_self_iff_true, if_true, Option.map_eq_map]
        cases hrb : r.get? b with
        | none =>
          have := List.get?_eq_none.mp hrb
          omega
        | some x => simp
      · rw [if_neg (fun hc => hb hc.symm), if_neg hb]
  · have hne : ¬(a = i ∧ b = j) := fun hc => ha hc.1.symm
    rw [if_neg ha, if_neg hne]

theorem matEntry_matSet_mono {m : List (List Bool)} {i j a b : Nat}
    (h : matEntry m a b = true) : matEntry (matSet m i j) a b = true := by
  unfold matEntry at h
  unfold matEntry matSet
  rw [List.get?_set]
  by_cases ha : i = a
  · subst ha
    cases hr : m.get? i with
    | none =>
      rw [hr] at h
      simp at h
    | some r =>
      rw [hr] at h
      simp only [Option.getD_some] at h
      simp only [eq_self_iff_true, if_true, Option.map_eq_map,
        Option.map_some', Option.getD_some]
      rw [List.get?_set]
      by_cases hb : j = b
      · subst hb
        cases hrb : r.get? j with
        | none =>
          rw [hrb] at h
          simp at h
        | some x =>
          simp
      · rw [if_neg hb]
        exact h
  · rw [if_neg ha]
    exact h

theorem optFold_some_of {f : β → α → Option β} :
    ∀ (l : List α) (b : β), (∀ x ∈ l, ∀ y, (f y x).isSome = true) →
      ∃ b', optFold f l b = some b' := by
  intro l
  induction l with
  | nil => intro b _; exact ⟨b, rfl⟩
  | cons x t ih =>
    intro b hall
    obtain ⟨b1, hb1⟩ := Option.isSome_iff_exists.mp (hall x (by simp) b)
    obtain ⟨b', hb'⟩ := ih b1 (fun y hy z => hall y (by simp [hy]) z)
    refine ⟨b', ?_⟩
    simp only [optFold, hb1]
    exact hb'

theorem diagFold_result (aml : List (List Char)) :
    ∀ (uls : List Nat) (acc : List (List Bool)),
      acc.length = aml.length → (∀ row ∈ acc, row.length = aml.length) →
      (∀ l ∈ uls, (pyIndex aml (zfill 9 (binRepr l))).isSome = true) →
      ∃ m2, optFold (fun mm l =>
          match pyIndex aml (zfill 9 (binRepr l)) with
          | some i => some (matSet mm i i)
          | none => none) uls acc = some m2 ∧
        m2.length = aml.length ∧ (∀ row ∈ m2, row.length = aml.length) ∧
        (∀ a b, matEntry acc a b = true → matEntry m2 a b = true) ∧
        (∀ l ∈ uls, ∀ i, pyIndex aml (zfill 9 (binRepr l)) = some i →
          matEntry m2 i i = true) := by
  intro uls
  induction uls with
  | nil =>
    intro acc h1 h2 _
    exact ⟨acc, rfl, h1, h2, fun a b h => h, by simp⟩
  | cons l t ih =>
    intro acc h1 h2 hls
    obtain ⟨i, hi⟩ := Option.isSome_iff_exists.mp (hls l (by simp))
    have hin : i < aml.length := pyIndex_lt hi
    have hsq := squareN_matSet h1 h2 hin (j := i)
    obtain ⟨m2, hm2, hq1, hq2, hmono, hdiag⟩ :=
      ih (matSet acc i i) hsq.1 hsq.2 (fun x hx => hls x (by simp [hx]))
    refine ⟨m2, ?_, hq1, hq2, ?_, ?_⟩
    · simp only [optFold, hi]
      exact hm2
    · intro a b hab
      exact hmono a b (matEntry_matSet_mono hab)
    · intro l' hl' i' hi'
      rcases List.mem_cons.mp hl' with rfl | hl2
      · rw [hi] at hi'
        injection hi' with hii
        subst hii
        refine hmono i i ?_
        rw [matEntry_matSet h1 h2 hin hin i i, if_pos ⟨rfl, rfl⟩]
      · exact hdiag l' hl2 i' hi'

/-! ### Claim C6 -/

/-- Claim C6 (counterexample): the diagonal pass of `get_adj_matrix`
zero-fills every observed label to the hard-coded width 9, so it fails
for any other configuration.  For one fault and one layer the canonical
label list built by the enumeration helpers holds width-3 strings; the
pipeline's label 9 (from `lb = [1]`, `fb = [[1]]`) then has no match and
`list.index` raises ValueError instead of setting the diagonal. -/
theorem claim_C6_counterexample :
    get_adj_matrix []
      (get_adj_matrix_labels (get_lith_labels_bin 1)
        (get_fault_label_comb_bin (get_fault_labels 1)))
      ((get_labels_block [1] [[1]]).labels) = none := by decide

/-- Claim C6 (amended): `get_adj_matrix` sets the diagonal entry of every
observed label and returns normally only for configurations where every
observed label's binary string zero-filled to the literal width 9 occurs
in `adj_matrix_labels` (forcing `n_faults * 2 + n_layers = 9`) and every
edge's label resolves as well; under those hypotheses every observed
label's canonical index gets a true diagonal entry. -/
theorem claim_C6_amended (edges : List (Nat × Nat)) (aml : List (List Char))
    (labels : List Nat) (hne : aml ≠ [])
    (hedges : ∀ p ∈ edges,
      (pyIndex aml (zfill (aml.headD []).length (binRepr p.1))).isSome = true ∧
      (pyIndex aml (zfill (aml.headD []).length (binRepr p.2))).isSome = true)
    (hlabs : ∀ l ∈ npUnique labels,
      (pyIndex aml (zfill 9 (binRepr l))).isSome = true) :
    ∃ m, get_adj_matrix edges aml labels = some m ∧
      ∀ l ∈ npUnique labels, ∀ i,
        pyIndex aml (zfill 9 (binRepr l)) = some i → matEntry m i i = true := by
  cases aml with
  | nil => exact absurd rfl hne
  | cons first rest =>
    simp only [List.headD_cons] at hedges
    have hm1ex : ∃ m1, optFold (fun mm e =>
        match pyIndex (first :: rest) (zfill first.length (binRepr e.1)),
            pyIndex (first :: rest) (zfill first.length (binRepr e.2)) with
        | some i, some j => some (matSet (matSet mm i j) j i)
        | _, _ => none) edges
        (List.replicate (first :: rest).length
          (List.replicate (first :: rest).length false)) = some m1 := by
      refine optFold_some_of edges _ ?_
      intro p hp y
      obtain ⟨hp1, hp2⟩ := hedges p hp
      obtain ⟨i, hi⟩ := Option.isSome_iff_exists.mp hp1
      obtain ⟨j, hj⟩ := Option.isSome_iff_exists.mp hp2
      show (match pyIndex (first :: rest) (zfill first.length (binRepr p.1)),
          pyIndex (first :: rest) (zfill first.length (binRepr p.2)) with
        | some i, some j => some (matSet (matSet y i j) j i)
        | _, _ => none).isSome = true
      rw [hi, hj]
      rfl
    obtain ⟨m1, hm1⟩ := hm1ex
    have hsqm1 : m1.length = (first :: rest).length ∧
        ∀ row ∈ m1, row.length = (first :: rest).length := by
      refine optFold_preserve (fun mm => mm.length = (first :: rest).length ∧
        ∀ row ∈ mm, row.length = (first :: rest).length) edges _ m1 hm1 ?_ ?_
      · intro e he y y' hf hy
        cases hii : pyIndex (first :: rest) (zfill first.length (binRepr e.1)) with
        | none => rw [hii] at hf; cases hf
        | some i =>
          cases hjj : pyIndex (first :: rest) (zfill first.length (binRepr e.2)) with
          | none => rw [hii, hjj] at hf; cases hf
          | some j =>
            rw [hii, hjj] at hf
            cases hf
            have hin : i < (first :: rest).length := pyIndex_lt hii
            have hjn : j < (first :: rest).length := pyIndex_lt hjj
            have hsqA := squareN_matSet hy.1 hy.2 hin (j := j)
            exact squareN_matSet hsqA.1 hsqA.2 hjn (j := i)
      · refine ⟨List.length_replicate _ _, ?_⟩
        intro row hrow
        rw [List.eq_of_mem_replicate hrow]
        exact List.length_replicate _ _
    obtain ⟨m2, hm2, _, _, _, hdiag⟩ :=
      diagFold_result (first :: rest) (npUnique labels) m1 hsqm1.1 hsqm1.2 hlabs
    refine ⟨m2, ?_, hdiag⟩
    show (optFold (fun mm e =>
        match pyIndex (first :: rest) (zfill first.length (binRepr e.1)),
            pyIndex (first :: rest) (zfill first.length (binRepr e.2)) with
        | some i, some j => some (matSet (matSet mm i j) j i)
        | _, _ => none) edges
        (List.replicate (first :: rest).length
          (List.replicate (first :: rest).length false))).bind
      (optFold (fun mm l =>
        match pyIndex (first :: rest) (zfill 9 (binRepr l)) with
        | some i => some (matSet mm i i)
        | none => none) (npUnique labels)) = some m2
    rw [hm1, Option.some_bind]
    exact hm2

/-- Claim C6 (witness): the amended theorem applied to the genuine
width-9 canonical list (two faults, five layers) with the observed label
21, whose canonical string '000010101' sits at index 0. -/
theorem claim_C6_witness :
    ∃ m, get_adj_matrix [] amlNine [21] = some m ∧
      ∀ l ∈ npUnique [21], ∀ i,
        pyIndex amlNine (zfill 9 (binRepr l)) = some i →
        matEntry m i i = true :=
  claim_C6_amended [] amlNine [21] (by decide) (by decide) (by decide)

/-! ### Claim C10 -/

/-- Claim C10 (confirmed): whenever `get_adj_matrix` returns a matrix,
that matrix is symmetric — the edge pass always sets the two mirrored
entries `[i, j]` and `[j, i]` together, the diagonal pass only touches
diagonal entries, and the initial all-false matrix is symmetric. -/
theorem claim_C10_theorem (edges : List (Nat × Nat)) (aml : List (List Char))
    (labels : List Nat) (m : List (List Bool))
    (h : get_adj_matrix edges aml labels = some m) :
    ∀ i j, matEntry m i j = matEntry m j i := by
  cases aml with
  | nil => exact absurd h (by simp [get_adj_matrix])
  | cons first rest =>
    have h' : (optFold (fun mm e =>
        match pyIndex (first :: rest) (zfill first.length (binRepr e.1)),
            pyIndex (first :: rest) (zfill first.length (binRepr e.2)) with
        | some i, some j => some (matSet (matSet mm i j) j i)
        | _, _ => none) edges
          (List.replicate (first :: rest).length
            (List.replicate (first :: rest).length false))).bind
        (optFold (fun mm l =>
          match pyIndex (first :: rest) (zfill 9 (binRepr l)) with
          | some i => some (matSet mm i i)
          | none => none) (npUnique labels)) = some m := h
    rw [Option.bind_eq_some] at h'
    rcases h' with ⟨m1, h1, h2⟩
    set n := (first :: rest).length with hn
    have hP0 : (List.replicate n (List.replicate n false)).length = n ∧
        (∀ row ∈ List.replicate n (List.replicate n false), row.length = n) ∧
        ∀ a b, matEntry (List.replicate n (List.replicate n false)) a b =
          matEntry (List.replicate n (List.replicate n false)) b a := by
      refine ⟨List.length_replicate _ _, ?_, ?_⟩
      · intro row hrow
        rw [List.eq_of_mem_replicate hrow]
        exact List.length_replicate _ _
      · intro a b
        rw [matEntry_replicate, matEntry_replicate]
    have hP1 : m1.length = n ∧ (∀ row ∈ m1, row.length = n) ∧
        ∀ a b, matEntry m1 a b = matEntry m1 b a := by
      refine optFold_preserve (fun mm => mm.length = n ∧
        (∀ row ∈ mm, row.length = n) ∧
        ∀ a b, matEntry mm a b = matEntry mm b a) edges _ m1 h1 ?_ hP0
      intro e he y y' hf hy
      cases hii : pyIndex (first :: rest) (zfill first.length (binRepr e.1)) with
      | none => rw [hii] at hf; cases hf
      | some i =>
        cases hjj : pyIndex (first :: rest) (zfill first.length (binRepr e.2)) with
        | none => rw [hii, hjj] at hf; cases hf
        | some j =>
          rw [hii, hjj] at hf
          cases hf
          have hin : i < n := pyIndex_lt hii
          have hjn : j < n := pyIndex_lt hjj
          have hsqA := squareN_matSet hy.1 hy.2.1 hin (j := j)
          have hsqB := squareN_matSet hsqA.1 hsqA.2 hjn (j := i)
          refine ⟨hsqB.1, hsqB.2, ?_⟩
          intro a b
          rw [matEntry_matSet hsqA.1 hsqA.2 hjn hin,
              matEntry_matSet hy.1 hy.2.1 hin hjn,
              matEntry_matSet hsqA.1 hsqA.2 hjn hin,
              matEntry_matSet hy.1 hy.2.1 hin hjn]
          have hsymm := hy.2.2 a b
          split_ifs <;> first | rfl | (exact hsymm) | (exfalso; omega)
    have hP2 : m.length = n ∧ (∀ row ∈ m, row.length = n) ∧
        ∀ a b, matEntry m a b = matEntry m b a := by
      refine optFold_preserve (fun mm => mm.length = n ∧
        (∀ row ∈ mm, row.length = n) ∧
        ∀ a b, matEntry mm a b = matEntry mm b a) (npUnique labels) m1 m h2 ?_ hP1
      intro l hl y y' hf hy
      cases hii : pyIndex (first :: rest) (zfill 9 (binRepr l)) with
      | none => rw [hii] at hf; cases hf
      | some i =>
        rw [hii] at hf
        cases hf
        have hin : i < n := pyIndex_lt hii
        have hsqA := squareN_matSet hy.1 hy.2.1 hin (j := i)
        refine ⟨hsqA.1, hsqA.2, ?_⟩
        intro a b
        rw [matEntry_matSet hy.1 hy.2.1 hin hin,
            matEntry_matSet hy.1 hy.2.1 hin hin]
        have hsymm := hy.2.2 a b
        split_ifs <;> first | rfl | (exact hsymm) | (exfalso; omega)
    exact hP2.2.2

/-- Claim C10 (witness): the symmetry theorem applied to a concrete run
on a two-entry canonical list with one off-diagonal edge, evaluated at
the mirrored index pair (0, 1) / (1, 0). -/
theorem claim_C10_witness :
    matEntry ((get_adj_matrix [(1, 21)]
        [['0', '0', '0', '0', '0', '0', '0', '0', '1'],
         ['0', '0', '0', '0', '1', '0', '1', '0', '1']] [1]).getD []) 0 1 =
      matEntry ((get_adj_matrix [(1, 21)]
        [['0', '0', '0', '0', '0', '0', '0', '0', '1'],
         ['0', '0', '0', '0', '1', '0', '1', '0', '1']] [1]).getD []) 1 0 :=
  claim_C10_theorem [(1, 21)]
    [['0', '0', '0', '0', '0', '0', '0', '0', '1'],
     ['0', '0', '0', '0', '1', '0', '1', '0', '1']] [1]
    ((get_adj_matrix [(1, 21)]
      [['0', '0', '0', '0', '0', '0', '0', '0', '1'],
       ['0', '0', '0', '0', '1', '0', '1', '0', '1']] [1]).getD [])
    (by decide) 0 1

/-! ### Lemmas: element access through the slicing operations -/

theorem get?_zipWith' (f : α → β → γ) :
    ∀ (a : List α) (b : List β) (i : Nat),
      (List.zipWith f a b).get? i = Option.map₂ f (a.get? i) (b.get? i) := by
  intro a
  induction a with
  | nil =>
    intro b i
    simp [Option.map₂_none_left]
  | cons x xs ih =>
    intro b i
    cases b with
    | nil => simp [List.zipWith_nil_right, Option.map₂_none_right]
    | cons y ys =>
      cases i with
      | zero => rfl
      | succ n =>
        rw [List.zipWith_cons_cons, List.get?_cons_succ, List.get?_cons_succ,
          List.get?_cons_succ]
        exact ih ys n

theorem get?_take' :
    ∀ (l : List α) (n i : Nat), (l.take n).get? i = if i < n then l.get? i else none := by
  intro l
  induction l with
  | nil =>
    intro n i
    simp only [List.take_nil, List.get?_nil]
    split <;> rfl
  | cons x xs ih =>
    intro n i
    cases n with
    | zero => simp
    | succ m =>
      cases i with
      | zero => simp
      | succ k =>
        rw [List.take_succ_cons, List.get?_cons_succ, List.get?_cons_succ, ih m k]
        simp [Nat.succ_lt_succ_iff]

theorem get?_sliceAB (a b i : Nat) (l : List α) :
    (sliceAB a b l).get? i =
      if i < l.length - (a + b) then l.get? (a + i) else none := by
  unfold sliceAB
  rw [get?_take']
  split
  · exact List.get?_drop l a i
  · rfl

theorem get?_sliceAB_left (a i : Nat) (l : List α) :
    (sliceAB a 0 l).get? i = l.get? (a + i) := by
  rw [get?_sliceAB]
  split
  · rfl
  · next h =>
    symm
    rw [List.get?_eq_none]
    omega

/-! ### Lemmas: alignment of the half-shifted volumes (n_shift = 1) -/

theorem fitRow (r1 r2 : List Nat) (k : Nat) :
    Option.map₂ (· + ·) ((sliceAB 0 1 r1).get? k) ((sliceAB 0 1 r2).get? k) =
      (sliceAB 0 1 (List.zipWith (· + ·) r1 r2)).get? k := by
  rw [get?_sliceAB, get?_sliceAB, get?_sliceAB, List.length_zipWith,
    get?_zipWith']
  simp only [Nat.zero_add]
  by_cases h1 : k < r1.length - 1 <;> by_cases h2 : k < r2.length - 1
  · rw [if_pos h1, if_pos h2, if_pos (by omega)]
  · rw [if_pos h1, if_neg h2, if_neg (by omega), Option.map₂_none_right]
  · rw [if_neg h1, if_pos h2, if_neg (by omega), Option.map₂_none_left]
  · rw [if_neg h1, if_neg h2, if_neg (by omega), Option.map₂_none_left]

theorem shiftRow (r : List Nat) (k : Nat) :
    Option.map₂ (· + ·) ((sliceAB 1 0 r).get? k) ((sliceAB 0 1 r).get? k) =
      (List.zipWith (· + ·) (r.drop 1) (sliceAB 0 1 r)).get? k := by
  rw [get?_zipWith', get?_sliceAB_left, List.get?_drop]

theorem fitSlab (s1 s2 : List (List Nat)) (j k : Nat) :
    Option.map₂ (· + ·)
      ((((sliceAB 0 1 s1).map (sliceAB 0 1)).get? j).bind (fun r => r.get? k))
      ((((sliceAB 0 1 s2).map (sliceAB 0 1)).get? j).bind (fun r => r.get? k)) =
    (((sliceAB 0 1 (List.zipWith (List.zipWith (· + ·)) s1 s2)).map
        (sliceAB 0 1)).get? j).bind (fun r => r.get? k) := by
  rw [List.get?_map, List.get?_map, List.get?_map, get?_sliceAB, get?_sliceAB,
    get?_sliceAB, List.length_zipWith, get?_zipWith']
  simp only [Nat.zero_add]
  by_cases h1 : j < s1.length - 1 <;> by_cases h2 : j < s2.length - 1
  · rw [if_pos h1, if_pos h2, if_pos (by omega)]
    cases hg1 : s1.get? j with
    | none =>
      have := List.get?_eq_none.mp hg1
      omega
    | some r1 =>
      cases hg2 : s2.get? j with
      | none =>
        have := List.get?_eq_none.mp hg2
        omega
      | some r2 =>
        rw [Option.map₂_some_some]
        simp only [Option.map_some', Option.some_bind]
        exact fitRow r1 r2 k
  · rw [if_pos h1, if_neg h2, if_neg (by omega)]
    simp
  · rw [if_neg h1, if_pos h2, if_neg (by omega)]
    simp
  · rw [if_neg h1, if_neg h2, if_neg (by omega)]
    simp

theorem ySlab (s : List (List Nat)) (j k : Nat) :
    Option.map₂ (· + ·)
      ((((sliceAB 1 0 s).map (sliceAB 0 1)).get? j).bind (fun r => r.get? k))
      ((((sliceAB 0 1 s).map (sliceAB 0 1)).get? j).bind (fun r => r.get? k)) =
    (((List.zipWith (List.zipWith (· + ·)) (s.drop 1) (sliceAB 0 1 s)).map
        (sliceAB 0 1)).get? j).bind (fun r => r.get? k) := by
  rw [List.get?_map, List.get?_map, List.get?_map, get?_sliceAB_left,
    get?_sliceAB, get?_zipWith', List.get?_drop, get?_sliceAB]
  simp only [Nat.zero_add]
  by_cases h2 : j < s.length - 1
  · rw [if_pos h2]
    cases hg2 : s.get? j with
    | none =>
      have := List.get?_eq_none.mp hg2
      omega
    | some r2 =>
      cases hg1 : s.get? (1 + j) with
      | none =>
        simp
      | some r1 =>
        rw [Option.map₂_some_some]
        simp only [Option.map_some', Option.some_bind]
        exact fitRow r1 r2 k
  · rw [if_neg h2]
    simp

theorem zSlab (s : List (List Nat)) (j k : Nat) :
    Option.map₂ (· + ·)
      ((((sliceAB 0 1 s).map (sliceAB 1 0)).get? j).bind (fun r => r.get? k))
      ((((sliceAB 0 1 s).map (sliceAB 0 1)).get? j).bind (fun r => r.get? k)) =
    ((sliceAB 0 1 (s.map (fun row =>
        List.zipWith (· + ·) (row.drop 1) (sliceAB 0 1 row)))).get? j).bind
      (fun r => r.get? k) := by
  rw [List.get?_map, List.get?_map, get?_sliceAB, get?_sliceAB,
    List.length_map]
  simp only [Nat.zero_add]
  by_cases h2 : j < s.length - 1
  · rw [if_pos h2, if_pos h2, List.get?_map]
    cases hg : s.get? j with
    | none =>
      have := List.get?_eq_none.mp hg
      omega
    | some r =>
      simp only [Option.map_some', Option.some_bind]
      exact shiftRow r k
  · rw [if_neg h2, if_neg h2]
    simp

theorem alignedAx_zero (L : Arr3) : alignedAx 1 L 0 := by
  intro i j k
  show Option.map₂ (· + ·)
      (at3 (crop3 (1, 0) (0, 1) (0, 1) L) i j k)
      (at3 (crop3 (0, 1) (0, 1) (0, 1) L) i j k) =
    at3 ((zip3With (· + ·) (L.drop 1) (sliceAB 0 1 L)).map
      (fun slab => (sliceAB 0 1 slab).map (sliceAB 0 1))) i j k
  unfold at3 crop3 zip3With
  dsimp only
  rw [List.get?_map, List.get?_map, List.get?_map, get?_sliceAB_left,
    get?_sliceAB, get?_zipWith', List.get?_drop, get?_sliceAB]
  simp only [Nat.zero_add]
  by_cases h2 : i < L.length - 1
  · rw [if_pos h2]
    cases hg2 : L.get? i with
    | none =>
      have := List.get?_eq_none.mp hg2
      omega
    | some s2 =>
      cases hg1 : L.get? (1 + i) with
      | none =>
        simp
      | some s1 =>
        rw [Option.map₂_some_some]
        simp only [Option.map_some', Option.some_bind]
        exact fitSlab s1 s2 j k
  · rw [if_neg h2]
    simp

theorem alignedAx_one (L : Arr3) : alignedAx 1 L 1 := by
  intro i j k
  show Option.map₂ (· + ·)
      (at3 (crop3 (0, 1) (1, 0) (0, 1) L) i j k)
      (at3 (crop3 (0, 1) (0, 1) (0, 1) L) i j k) =
    at3 ((sliceAB 0 1 (L.map (fun slab =>
        List.zipWith (List.zipWith (· + ·)) (slab.drop 1) (sliceAB 0 1 slab)))).map
      (fun slab => slab.map (sliceAB 0 1))) i j k
  unfold at3 crop3
  dsimp only
  rw [List.get?_map, List.get?_map, List.get?_map, get?_sliceAB, get?_sliceAB,
    List.length_map]
  simp only [Nat.zero_add]
  by_cases h2 : i < L.length - 1
  · rw [if_pos h2, if_pos h2, List.get?_map]
    cases hg : L.get? i with
    | none =>
      have := List.get?_eq_none.mp hg
      omega
    | some s =>
      simp only [Option.map_some', Option.some_bind]
      exact ySlab s j k
  · rw [if_neg h2, if_neg h2]
    simp

theorem alignedAx_two (L : Arr3) : alignedAx 1 L 2 := by
  intro i j k
  show Option.map₂ (· + ·)
      (at3 (crop3 (0, 1) (0, 1) (1, 0) L) i j k)
      (at3 (crop3 (0, 1) (0, 1) (0, 1) L) i j k) =
    at3 ((sliceAB 0 1 (L.map (fun slab => slab.map (fun row =>
        List.zipWith (· + ·) (row.drop 1) (sliceAB 0 1 row))))).map
      (fun slab => sliceAB 0 1 slab)) i j k
  unfold at3 crop3
  dsimp only
  rw [List.get?_map, List.get?_map, List.get?_map, get?_sliceAB, get?_sliceAB,
    List.length_map]
  simp only [Nat.zero_add]
  by_cases h2 : i < L.length - 1
  · rw [if_pos h2, if_pos h2, List.get?_map]
    cases hg : L.get? i with
    | none =>
      have := List.get?_eq_none.mp hg
      omega
    | some s =>
      simp only [Option.map_some', Option.some_bind]
      exact zSlab s j k
  · rw [if_neg h2, if_neg h2]
    simp

/-! ### Claim C9 -/

/-- Claim C9 (counterexample): for `n_shift = 2` the crops disagree —
`get_edges` trims the non-shifted axes with `slice(n_shift - 1, -n_shift)`
(keeping 0 of 3 positions) while `get_topo_block` trims them with
`slice(n_shift // 2, -n_shift // 2)` (keeping 1 of 3) — so on the uniform
4×3×3 block the topo entry at (0,0,0) exists but the half-shifted
sub-volumes are empty there. -/
theorem claim_C9_counterexample : ¬ alignedAx 2 volC9 0 :=
  fun h => absurd (h 0 0 0) (by decide)

/-- Claim C9 (amended): for the default shift distance `n_shift = 1` the
two half-shifted label sub-volumes sliced by `get_edges` are aligned with
the cropping used by `get_topo_block` on every axis: at every position of
the cropped grid the two sub-volume values sum to the stored signature,
and all three arrays run out of range together.  For `n_shift ≥ 2` the
claim fails (see the counterexample). -/
theorem claim_C9_amended (labels : Arr3) (ax : Nat) (hax : ax < 3) :
    alignedAx 1 labels ax := by
  have h3 : ax = 0 ∨ ax = 1 ∨ ax = 2 := by omega
  rcases h3 with rfl | rfl | rfl
  · exact alignedAx_zero labels
  · exact alignedAx_one labels
  · exact alignedAx_two labels

/-- Claim C9 (witness): the amended theorem applied to the concrete
uniform block at axis 0. -/
theorem claim_C9_witness : alignedAx 1 volC9 0 :=
  claim_C9_amended volC9 0 (by decide)

end TopologyNp
